import Mathlib

/-!
# A binary min-heap priority queue (`pq.c`)

Shallow embedding of `pq.c` and a verification of its specification.

* C `int` values (indices, counters, priorities) are `Int`; `int` is taken to be
  32 bits wide. The child indices `idx * 2 + 1` and `lchild + 1` of
  `get_min_child` and the counter updates `last++`, `next++`, `last--`, `next--`
  are computed with `int_wrap`: a result outside `[-2^31, 2^31)` wraps around.
  The theorems about `get_min_child`, `perc_down` and `pq_remove_first` carry
  the bound `size ≤ 2^30` under which the child indices do not wrap. The parent
  index `(idx - 1) / 2` of `perc_up` is computed from an index `idx ≥ 0` and
  cannot leave the range.
* A `void*` payload is a value of an arbitrary type `α`; the queue never looks
  inside it.
* A `struct pq_node*` stored in the array is modelled by the node value itself
  (allocation and `free` are not modelled).
* The C text of `pq_node_create` builds the node and ends without a
  `return` statement, so the value of a call is not defined. `pq_insert` uses
  that value as the new node; in the model `pq_node_create` yields `Res.undef`
  and so does every call of `pq_insert`. The statements of `pq_insert` that
  follow the call are `pq_insert_node`, which takes the node as an argument.
* Every C function that touches the array returns a `Res`: either it completes
  with a value, or it reaches a step whose behaviour is undefined (an array
  access outside the range of the array's contract, the use of a value that is
  not defined), or the step budget of a loop is used up.
-/

set_option autoImplicit false

/-! ## Outcomes of running C code -/

/-- Outcome of running a piece of the C code. `ok v`: the code completes with
value `v`. `undef`: the code performs a step whose behaviour is undefined (an
array access outside the range for which the array's contract defines a
behaviour, or the use of a value that is not defined); nothing is known about
the program from there on. `nofuel`: a loop was cut off by the step budget of
the model before it finished. -/
inductive Res (β : Type) : Type where
  | ok : β → Res β
  | undef : Res β
  | nofuel : Res β
  deriving DecidableEq

/-- Sequencing of two pieces of code: the second runs on the value of the first;
`undef` and `nofuel` are passed on. -/
def Res.bind {β γ : Type} : Res β → (β → Res γ) → Res γ
  | Res.ok v, f => f v
  | Res.undef, _ => Res.undef
  | Res.nofuel, _ => Res.nofuel

instance : Monad Res where
  pure := Res.ok
  bind := Res.bind

/-! ## Machine integers -/

/-- The value of a C `int` computation whose mathematical result is `x`: `int` is
32 bits wide, and a result outside `[-2^31, 2^31)` is taken to wrap around
(two's complement). The C standard leaves such a result undefined; the theorems
that depend on the value of such a computation carry a bound under which it
stays in range. -/
def int_wrap (x : Int) : Int := (x + 2147483648) % 4294967296 - 2147483648

/-! ## The growable array (`dynarray.h`) -/

/-- Modelled from the spec: the growable indexed sequence behind `dynarray.h`
(its implementation is not among the sources): a zero-indexed sequence of
element handles. -/
abbrev dynarray (β : Type) : Type := List β

/-- Modelled from the spec: `create` of the growable sequence (`dynarray_create`
is not among the sources); the new sequence is empty. -/
def dynarray_create {β : Type} : dynarray β := []

/-- Modelled from the spec: `size -> int` of the growable sequence
(`dynarray_size` is not among the sources). -/
def dynarray_size {β : Type} (da : dynarray β) : Int := (da.length : Int)

/-- Modelled from the spec: `get(index) -> element` of the growable sequence
(`dynarray_get` is not among the sources); zero-based, behaviour undefined for
an index outside `[0, size)`. -/
def dynarray_get {β : Type} (da : dynarray β) (idx : Int) : Res β :=
  if 0 ≤ idx ∧ idx < dynarray_size da then
    match da[idx.toNat]? with
    | some x => Res.ok x
    | none => Res.undef
  else Res.undef

/-- Modelled from the spec: `set(index, element)` of the growable sequence
(`dynarray_set` is not among the sources); zero-based, behaviour undefined for
an index outside `[0, size)`. -/
def dynarray_set {β : Type} (da : dynarray β) (idx : Int) (v : β) : Res (dynarray β) :=
  if 0 ≤ idx ∧ idx < dynarray_size da then Res.ok (da.set idx.toNat v)
  else Res.undef

/-- Modelled from the spec: `insertAt(index, element)` of the growable sequence
(`dynarray_insert` is not among the sources), with append semantics when
`index == size`; at an index below the size the later elements move up by one;
behaviour undefined for an index outside `[0, size]`. -/
def dynarray_insert {β : Type} (da : dynarray β) (idx : Int) (v : β) : Res (dynarray β) :=
  if 0 ≤ idx ∧ idx ≤ dynarray_size da then Res.ok (da.insertIdx idx.toNat v)
  else Res.undef

/-- Modelled from the spec: `removeAt(index)` of the growable sequence
(`dynarray_remove` is not among the sources); it compacts the subsequent
elements; behaviour undefined for an index outside `[0, size)`. -/
def dynarray_remove {β : Type} (da : dynarray β) (idx : Int) : Res (dynarray β) :=
  if 0 ≤ idx ∧ idx < dynarray_size da then Res.ok (da.eraseIdx idx.toNat)
  else Res.undef

/-! ## `pq.c` -/

/-- Structure `struct pq_node`: the payload and its priority (a low value means a high
priority). -/
structure pq_node (α : Type) : Type where
  val : α
  priority : Int
  deriving DecidableEq

/-- Function `pq_node_create`: allocates a node and stores `val` and `priority`
in it. The C function has the return type `struct pq_node*` and reaches its
closing brace without a `return` statement: the node is built and then lost,
and the value of the call is not defined. -/
def pq_node_create {α : Type} (val : α) (priority : Int) : Res (pq_node α) :=
  let _node : pq_node α := { val := val, priority := priority }
  Res.undef

/-- Structure `struct pq`: `last` is the index of the last inserted value, `next` the
location to insert the next value, `arr` the backing array of nodes. -/
structure pq (α : Type) : Type where
  last : Int
  next : Int
  arr : dynarray (pq_node α)
  deriving DecidableEq

/-- Function `pq_create`: an empty array, `last = -1`, `next = 0`. -/
def pq_create {α : Type} : pq α :=
  { last := -1, next := 0, arr := dynarray_create }

/-- Function `pq_isempty`: `!dynarray_size(pq->arr)`, that is 1 when the size is 0 and 0
otherwise. -/
def pq_isempty {α : Type} (q : pq α) : Int :=
  if dynarray_size q.arr = 0 then 1 else 0

/-- The `while` loop of `perc_up`, at most `fuel` evaluations of its condition.
The state of the loop is the array and the locals `idx`, `parent`, `temp`.
The division `(idx - 1) / 2` is that of C, which truncates toward zero. -/
def perc_up_loop {α : Type} :
    Nat → dynarray (pq_node α) → Int → Int → pq_node α → Res (dynarray (pq_node α))
  | 0, _, _, _, _ => Res.nofuel
  | fuel + 1, arr, idx, parent, temp =>
    if parent ≥ 0 then do
      let pn ← dynarray_get arr parent
      let cn ← dynarray_get arr idx
      if pn.priority > cn.priority then do
        -- swap parent with current
        let cur ← dynarray_get arr idx
        let arr1 ← dynarray_set arr parent cur
        let arr2 ← dynarray_set arr1 idx temp
        -- update indexes
        let idx1 := parent
        let parent1 := Int.tdiv (idx1 - 1) 2
        let temp1 ← dynarray_get arr2 parent1
        perc_up_loop fuel arr2 idx1 parent1 temp1
      else pure arr
    else pure arr

/-- Function `perc_up`: percolates the value at `idx` up the heap. The loop is given a
budget of `size + 1` evaluations of its condition. -/
def perc_up {α : Type} (arr : dynarray (pq_node α)) (idx : Int) :
    Res (dynarray (pq_node α)) := do
  let parent := Int.tdiv (idx - 1) 2
  let temp ← dynarray_get arr parent
  perc_up_loop (arr.length + 1) arr idx parent temp

/-- The statements of `pq_insert` that follow the call of `pq_node_create`, run
with `node` as the new node: inserts it at index `next`, percolates it up from
there, then increments `last` and `next`. -/
def pq_insert_node {α : Type} (q : pq α) (node : pq_node α) : Res (pq α) := do
  let arr1 ← dynarray_insert q.arr q.next node
  let arr2 ← perc_up arr1 q.next
  pure { last := int_wrap (q.last + 1), next := int_wrap (q.next + 1), arr := arr2 }

/-- Function `pq_insert`: takes the value of the call `pq_node_create(value,
priority)` as the new node and continues with `pq_insert_node`. -/
def pq_insert {α : Type} (q : pq α) (value : α) (priority : Int) : Res (pq α) := do
  let node ← pq_node_create value priority
  pq_insert_node q node

/-- Function `pq_first`: the `val` of the node at index 0. -/
def pq_first {α : Type} (q : pq α) : Res α := do
  let n ← dynarray_get q.arr 0
  pure n.val

/-- Function `pq_first_priority`: the `priority` of the node at index 0. -/
def pq_first_priority {α : Type} (q : pq α) : Res Int := do
  let n ← dynarray_get q.arr 0
  pure n.priority

/-- Function `get_min_child`: `-1` when the left child `(idx * 2) + 1` is out of
bounds, the left child when the right one is out of bounds, else the right child
when the left priority is greater than the right one and the left child
otherwise. The two child indices are `int` computations. -/
def get_min_child {α : Type} (arr : dynarray (pq_node α)) (idx : Int) : Res Int :=
  let size := dynarray_size arr
  let lchild := int_wrap (int_wrap (idx * 2) + 1)
  if lchild ≥ size then pure (-1)
  else
    let rchild := int_wrap (lchild + 1)
    if rchild ≥ size then pure lchild
    else do
      let l ← dynarray_get arr lchild
      let r ← dynarray_get arr rchild
      if l.priority > r.priority then pure rchild else pure lchild

/-- The `while(1)` loop of `perc_down`, at most `fuel` iterations. -/
def perc_down_loop {α : Type} :
    Nat → dynarray (pq_node α) → Int → Res (dynarray (pq_node α))
  | 0, _, _ => Res.nofuel
  | fuel + 1, arr, idx => do
    let minchild ← get_min_child arr idx
    if minchild = -1 then pure arr
    else do
      let mc ← dynarray_get arr minchild
      let cn ← dynarray_get arr idx
      if mc.priority < cn.priority then do
        let temp ← dynarray_get arr minchild
        -- swap minchild node with current node
        let cur ← dynarray_get arr idx
        let arr1 ← dynarray_set arr minchild cur
        let arr2 ← dynarray_set arr1 idx temp
        perc_down_loop fuel arr2 minchild
      else pure arr

/-- Function `perc_down`: percolates the value at `idx` down the heap. The loop is given
a budget of `size + 1` iterations. -/
def perc_down {α : Type} (arr : dynarray (pq_node α)) (idx : Int) :
    Res (dynarray (pq_node α)) :=
  perc_down_loop (arr.length + 1) arr idx

/-- Function `pq_remove_first`: reads the `val` of the node at index 0, puts the node at
index `last` in slot 0, removes slot `last`, percolates down from the root, then
decrements `last` and `next`; the result is the value read and the new queue. -/
def pq_remove_first {α : Type} (q : pq α) : Res (α × pq α) := do
  let n ← dynarray_get q.arr 0
  let first := n.val
  let l ← dynarray_get q.arr q.last
  let arr1 ← dynarray_set q.arr 0 l
  let arr2 ← dynarray_remove arr1 q.last
  let arr3 ← perc_down arr2 0
  pure (first, { last := int_wrap (q.last - 1), next := int_wrap (q.next - 1), arr := arr3 })

/-! ## Properties of the backing array -/

/-- Priority of the node at index `i` (0 outside the array). -/
def prio {α : Type} (a : dynarray (pq_node α)) (i : Nat) : Int :=
  match a[i]? with
  | some n => n.priority
  | none => 0

/-- The min-heap property of the backing array: every index `i` with
`1 ≤ i < size` has `priority(arr[(i-1)/2]) ≤ priority(arr[i])`. -/
def min_heap {α : Type} (a : dynarray (pq_node α)) : Prop :=
  ∀ i, i < a.length → 1 ≤ i → prio a ((i - 1) / 2) ≤ prio a i

instance {α : Type} (a : dynarray (pq_node α)) : Decidable (min_heap a) :=
  Nat.decidableBallLT _ _

/-- The child index that `get_min_child` picks at a node that has a left child:
the left child, unless the right child exists and has a strictly smaller
priority. -/
def mc {α : Type} (a : dynarray (pq_node α)) (i : Nat) : Nat :=
  if a.length ≤ 2 * i + 2 then 2 * i + 1
  else if prio a (2 * i + 1) > prio a (2 * i + 2) then 2 * i + 2 else 2 * i + 1

/-- The array is a min-heap except possibly between index `i` and its parent:
every other node is at least its parent, and the children of `i` are at least
the parent of `i`. -/
def up_inv {α : Type} (a : dynarray (pq_node α)) (i : Nat) : Prop :=
  (∀ j, j < a.length → 1 ≤ j → j ≠ i → prio a ((j - 1) / 2) ≤ prio a j) ∧
  (∀ j, j < a.length → 1 ≤ j → (j - 1) / 2 = i → 1 ≤ i →
    prio a ((i - 1) / 2) ≤ prio a j)

/-- The array is a min-heap except possibly between index `i` and its children:
every node whose parent is not `i` is at least its parent, and the children of
`i` are at least the parent of `i`. -/
def down_inv {α : Type} (a : dynarray (pq_node α)) (i : Nat) : Prop :=
  (∀ j, j < a.length → 1 ≤ j → (j - 1) / 2 ≠ i → prio a ((j - 1) / 2) ≤ prio a j) ∧
  (∀ j, j < a.length → 1 ≤ j → (j - 1) / 2 = i → 1 ≤ i →
    prio a ((i - 1) / 2) ≤ prio a j)


/-! ## Reachable states and usage scenarios -/

/-- The counters of a queue agree with its array: `next` is the size and `last`
is the size minus one. -/
def counters_ok {α : Type} (q : pq α) : Prop :=
  q.next = dynarray_size q.arr ∧ q.last = dynarray_size q.arr - 1

/-- The state invariant of the queue: the counters agree with the array and the
array is a min-heap. -/
def pq_inv {α : Type} (q : pq α) : Prop :=
  counters_ok q ∧ min_heap q.arr

/-- Relation `ReachNodes i r q`: the state `q` is obtained from `pq_create` by
`i` completed runs of `pq_insert_node`, each with some node and on a queue of
fewer than `2^30` entries, and `r` completed `pq_remove_first` calls, each made
on a queue of at most `2^30` entries for which `pq_isempty` returned 0. It
describes the states the queue reaches when every call of `pq_node_create`
hands a node to `pq_insert`. -/
inductive ReachNodes {α : Type} : Nat → Nat → pq α → Prop where
  | create : ReachNodes 0 0 pq_create
  | insert {i r : Nat} {q q' : pq α} (n : pq_node α) :
      ReachNodes i r q → dynarray_size q.arr < 1073741824 →
      pq_insert_node q n = Res.ok q' → ReachNodes (i + 1) r q'
  | remove {i r : Nat} {q q' : pq α} {x : α} :
      ReachNodes i r q → dynarray_size q.arr ≤ 1073741824 → pq_isempty q = 0 →
      pq_remove_first q = Res.ok (x, q') → ReachNodes i (r + 1) q'

/-- Runs `pq_insert_node` with the nodes of a list, in order. -/
def insert_nodes {α : Type} (q : pq α) : List (pq_node α) → Res (pq α)
  | [] => Res.ok q
  | n :: rest => do
    let q1 ← pq_insert_node q n
    insert_nodes q1 rest

/-- Inserts the (payload, priority) pairs of a list, in order. -/
def insert_all {α : Type} (q : pq α) : List (α × Int) → Res (pq α)
  | [] => Res.ok q
  | e :: rest => do
    let q1 ← pq_insert q e.1 e.2
    insert_all q1 rest

/-- Drains a queue: while `pq_isempty` returns 0, records `pq_first_priority`
and calls `pq_remove_first`. The result lists, in order, the payload returned
by each removal with the priority recorded just before it; `fuel` bounds the
number of removals. -/
def drain {α : Type} : Nat → pq α → Res (List (α × Int))
  | 0, q => if pq_isempty q = 0 then Res.nofuel else Res.ok []
  | fuel + 1, q =>
    if pq_isempty q = 0 then do
      let p ← pq_first_priority q
      let r ← pq_remove_first q
      let rest ← drain fuel r.2
      pure ((r.1, p) :: rest)
    else Res.ok []

/-- The (payload, priority) pair held by a node. -/
def entry {α : Type} (n : pq_node α) : α × Int := (n.val, n.priority)

/-- Scenario: (A,5), (B,3), (C,8) inserted into a new queue. -/
def scenario_abc : Res (pq String) :=
  insert_all pq_create [("A", 5), ("B", 3), ("C", 8)]

/-- The queue that holds (B,3), (A,5), (C,8) in heap order with agreeing
counters: the state that the three inserts of `scenario_abc` are meant to
reach. -/
def state_abc : pq String :=
  { last := 2, next := 3, arr := [⟨"B", 3⟩, ⟨"A", 5⟩, ⟨"C", 8⟩] }

/-- The queue that holds (A,5), (C,8) with agreeing counters: `state_abc` after
one `pq_remove_first`. -/
def state_ac : pq String :=
  { last := 1, next := 2, arr := [⟨"A", 5⟩, ⟨"C", 8⟩] }

/-- Elements numbered `n-1, ..., 0`, each with its number as priority. -/
def descending (n : Nat) : List (Nat × Int) :=
  (List.range n).reverse.map (fun (k : Nat) => (k, (k : Int)))

/-! ## Index arithmetic of the implicit tree -/

/-- The expression `(idx - 1) / 2` by which `perc_up` computes the local
`parent`, with the division of C, which truncates toward zero. -/
def perc_up_parent (idx : Int) : Int := Int.tdiv (idx - 1) 2

/-- The parent of a natural-number index: `(n - 1) / 2`, and 0 for the root. -/
def parent_idx (n : Nat) : Nat := (n - 1) / 2

/-- Index `j` is `idx` or an ancestor of `idx`: it is obtained from `idx` by
applying `j -> (j - 1) / 2` some number of times (at most `idx` times, after
which the root has been reached). -/
def on_path (idx j : Nat) : Prop := ∃ k, k < idx + 1 ∧ parent_idx^[k] idx = j

instance (idx j : Nat) : Decidable (on_path idx j) :=
  inferInstanceAs (Decidable (∃ k, k < idx + 1 ∧ parent_idx^[k] idx = j))


/-! ## Reading the model at natural-number indices -/

section Basics

variable {α : Type}

@[simp] theorem Res.pure_eq {β : Type} (v : β) : (pure v : Res β) = Res.ok v := rfl

@[simp] theorem Res.ok_bind {β γ : Type} (v : β) (f : β → Res γ) :
    (Res.ok v >>= f) = f v := rfl

@[simp] theorem Res.undef_bind {β γ : Type} (f : β → Res γ) :
    ((Res.undef : Res β) >>= f) = Res.undef := rfl

@[simp] theorem Res.nofuel_bind {β γ : Type} (f : β → Res γ) :
    ((Res.nofuel : Res β) >>= f) = Res.nofuel := rfl

theorem prio_of_get {a : dynarray (pq_node α)} {i : Nat} {x : pq_node α}
    (h : a[i]? = some x) : prio a i = x.priority := by
  simp [prio, h]

theorem lt_length_of_get {β : Type} {a : List β} {i : Nat} {x : β}
    (h : a[i]? = some x) : i < a.length := by
  rcases List.getElem?_eq_some.1 h with ⟨hl, _⟩
  exact hl

theorem dynarray_get_nat {β : Type} {a : dynarray β} {i : Nat} {x : β}
    (h : a[i]? = some x) : dynarray_get a (i : Int) = Res.ok x := by
  have hl := lt_length_of_get h
  simp [dynarray_get, dynarray_size, h, hl]

theorem dynarray_set_nat {β : Type} {a : dynarray β} {i : Nat} (v : β)
    (h : i < a.length) : dynarray_set a (i : Int) v = Res.ok (a.set i v) := by
  simp [dynarray_set, dynarray_size, h]

/-- C's truncating `(idx - 1) / 2` at a non-negative index: the usual parent
index, and index 0 at the root. -/
theorem tdiv_parent (i : Nat) : Int.tdiv ((i : Int) - 1) 2 = (((i - 1) / 2 : Nat) : Int) := by
  cases i with
  | zero => decide
  | succ n =>
    have h : ((n + 1 : Nat) : Int) - 1 = (n : Int) := by push_cast; ring
    rw [h, Int.tdiv_eq_ediv (Int.ofNat_nonneg n) (by decide)]
    simp

end Basics

/-! ## Exchanging two slots -/

section Exchange

variable {α : Type}

theorem get_set_set {β : Type} {a : List β} {i p : Nat} {x t : β}
    (hi : a[i]? = some x) (hp : a[p]? = some t) (k : Nat) :
    ((a.set p x).set i t)[k]? =
      if k = i then some t else if k = p then some x else a[k]? := by
  have hil := lt_length_of_get hi
  have hpl := lt_length_of_get hp
  simp only [List.getElem?_set, List.length_set]
  by_cases h1 : k = i
  · subst h1; simp [hil]
  · have h1' : ¬ i = k := fun h => h1 h.symm
    by_cases h2 : k = p
    · subst h2; simp [h1, h1', hpl]
    · have h2' : ¬ p = k := fun h => h2 h.symm
      simp [h1, h2, h1', h2']

theorem prio_set_set {a : dynarray (pq_node α)} {i p : Nat} {x t : pq_node α}
    (hi : a[i]? = some x) (hp : a[p]? = some t) (k : Nat) :
    prio ((a.set p x).set i t) k =
      if k = i then t.priority else if k = p then x.priority else prio a k := by
  unfold prio
  rw [get_set_set hi hp k]
  by_cases h1 : k = i
  · simp [h1]
  · by_cases h2 : k = p
    · rw [if_neg h1, if_pos h2, if_neg h1, if_pos h2]
    · simp [h1, h2]

theorem cons_perm_cons_set {β : Type} (y : β) :
    ∀ (a : List β) (i : Nat) (x : β), a[i]? = some x →
      (y :: a).Perm (x :: a.set i y)
  | [], _, _, h => by simp at h
  | b :: t, 0, x, h => by
    simp at h
    subst h
    exact List.Perm.swap _ _ _
  | b :: t, k + 1, x, h => by
    simp at h
    have ih := cons_perm_cons_set y t k x h
    calc (y :: b :: t).Perm (b :: y :: t) := List.Perm.swap _ _ _
      _ |>.Perm (b :: x :: t.set k y) := List.Perm.cons _ ih
      _ |>.Perm (x :: b :: t.set k y) := List.Perm.swap _ _ _

theorem perm_cons_eraseIdx {β : Type} :
    ∀ (a : List β) (i : Nat) (x : β), a[i]? = some x →
      a.Perm (x :: a.eraseIdx i)
  | [], _, _, h => by simp at h
  | b :: t, 0, x, h => by
    simp at h
    subst h
    simp
  | b :: t, k + 1, x, h => by
    simp at h
    have ih := perm_cons_eraseIdx t k x h
    exact (List.Perm.cons b ih).trans (List.Perm.swap _ _ _)

/-- Exchanging the contents of two slots permutes the array. -/
theorem set_set_perm {β : Type} {a : List β} {i p : Nat} {x t : β}
    (hi : a[i]? = some x) (hp : a[p]? = some t) :
    ((a.set p x).set i t).Perm a := by
  have h1 : (x :: a).Perm (t :: a.set p x) := cons_perm_cons_set x a p t hp
  have hi' : (a.set p x)[i]? = some x := by
    rw [List.getElem?_set]
    by_cases h : p = i
    · subst h; simp [lt_length_of_get hp]
    · simp [h, hi]
  have h2 : (t :: a.set p x).Perm (x :: (a.set p x).set i t) :=
    cons_perm_cons_set t (a.set p x) i x hi'
  exact ((h1.trans h2).cons_inv).symm

end Exchange

/-! ## The loop of `perc_up` -/

section PercUp

variable {α : Type}

theorem perc_up_loop_stop (fuel : Nat) {a : dynarray (pq_node α)} {i p : Nat}
    {x t : pq_node α} (hi : a[i]? = some x) (hp : a[p]? = some t)
    (h : ¬ t.priority > x.priority) (temp : pq_node α) :
    perc_up_loop (fuel + 1) a (i : Int) (p : Int) temp = Res.ok a := by
  rw [perc_up_loop]
  simp [dynarray_get_nat hi, dynarray_get_nat hp, h]

theorem perc_up_loop_swap (fuel : Nat) {a : dynarray (pq_node α)} {i p pp : Nat}
    {x t t1 : pq_node α} (hi : a[i]? = some x) (hp : a[p]? = some t)
    (h : t.priority > x.priority) (hpp : Int.tdiv ((p : Int) - 1) 2 = (pp : Int))
    (ht1 : ((a.set p x).set i t)[pp]? = some t1) :
    perc_up_loop (fuel + 1) a (i : Int) (p : Int) t =
      perc_up_loop fuel ((a.set p x).set i t) (p : Int) (pp : Int) t1 := by
  have hil := lt_length_of_get hi
  have hpl := lt_length_of_get hp
  rw [perc_up_loop]
  have hs1 := dynarray_set_nat x hpl
  have hs2 : dynarray_set (a.set p x) (i : Int) t = Res.ok ((a.set p x).set i t) :=
    dynarray_set_nat t (by simpa using hil)
  have hg := dynarray_get_nat ht1
  simp only [hpp]
  simp [dynarray_get_nat hi, dynarray_get_nat hp, h, hs1, hs2, hg]

/-- Loop rule for `perc_up`: a property `Inv` of the array and the current index
that holds at entry and is kept by every exchange of a node with its larger
parent holds at exit, where the loop has stopped at an index whose parent does
not have a larger priority. The budget only has to exceed the start index. -/
theorem perc_up_loop_rule (Inv : dynarray (pq_node α) → Nat → Prop)
    (hstep : ∀ (a : dynarray (pq_node α)) (i : Nat) (x t : pq_node α), Inv a i →
      1 ≤ i → a[i]? = some x → a[(i - 1) / 2]? = some t → t.priority > x.priority →
      Inv ((a.set ((i - 1) / 2) x).set i t) ((i - 1) / 2)) :
    ∀ (fuel : Nat) (a : dynarray (pq_node α)) (i : Nat) (t : pq_node α),
      i < fuel → i < a.length → a[(i - 1) / 2]? = some t → Inv a i →
      ∃ (b : dynarray (pq_node α)) (k : Nat),
        perc_up_loop fuel a (i : Int) (((i - 1) / 2 : Nat) : Int) t = Res.ok b ∧
        b.length = a.length ∧ k ≤ i ∧ Inv b k ∧ prio b ((k - 1) / 2) ≤ prio b k := by
  intro fuel
  induction fuel with
  | zero => intro a i t hf; omega
  | succ fuel ih =>
    intro a i t hf hil hp hinv
    have hi : a[i]? = some a[i] := List.getElem?_eq_getElem hil
    by_cases h : t.priority > a[i].priority
    · have hi1 : 1 ≤ i := by
        rcases Nat.eq_zero_or_pos i with h0 | h0
        · subst h0
          have h2 : a[0]? = some t := hp
          rw [hi] at h2
          cases h2
          exact absurd h (lt_irrefl _)
        · exact h0
      have hpl := lt_length_of_get hp
      have hlen : ((a.set ((i - 1) / 2) a[i]).set i t).length = a.length := by simp
      have hgl : ((i - 1) / 2 - 1) / 2 < ((a.set ((i - 1) / 2) a[i]).set i t).length := by
        rw [hlen]; omega
      have ht1 := List.getElem?_eq_getElem hgl
      rw [perc_up_loop_swap fuel hi hp h (tdiv_parent _) ht1]
      have hinv' := hstep a i a[i] t hinv hi1 hi hp h
      obtain ⟨b, k, hb, hbl, hk, hbi, hbp⟩ :=
        ih _ ((i - 1) / 2) _ (by omega) (by rw [hlen]; exact hpl) ht1 hinv'
      exact ⟨b, k, hb, by rw [hbl, hlen], by omega, hbi, hbp⟩
    · rw [perc_up_loop_stop fuel hi hp h]
      refine ⟨a, i, rfl, rfl, le_refl _, hinv, ?_⟩
      rw [prio_of_get hp, prio_of_get hi]
      exact not_lt.1 h

end PercUp

/-! ## `perc_up` restores the heap -/

section PercUpHeap

variable {α : Type}

theorem perc_up_rule (Inv : dynarray (pq_node α) → Nat → Prop)
    (hstep : ∀ (a : dynarray (pq_node α)) (i : Nat) (x t : pq_node α), Inv a i →
      1 ≤ i → a[i]? = some x → a[(i - 1) / 2]? = some t → t.priority > x.priority →
      Inv ((a.set ((i - 1) / 2) x).set i t) ((i - 1) / 2))
    (a : dynarray (pq_node α)) (i : Nat) (hil : i < a.length) (hinv : Inv a i) :
    ∃ (b : dynarray (pq_node α)) (k : Nat),
      perc_up a (i : Int) = Res.ok b ∧
      b.length = a.length ∧ k ≤ i ∧ Inv b k ∧ prio b ((k - 1) / 2) ≤ prio b k := by
  have hpl : (i - 1) / 2 < a.length := by omega
  have hp := List.getElem?_eq_getElem hpl
  obtain ⟨b, k, hb, rest⟩ :=
    perc_up_loop_rule Inv hstep (a.length + 1) a i _ (by omega) hil hp hinv
  refine ⟨b, k, ?_, rest⟩
  unfold perc_up
  simp only [tdiv_parent]
  rw [dynarray_get_nat hp]
  exact hb

theorem up_inv_step (a : dynarray (pq_node α)) (i : Nat) (x t : pq_node α)
    (hinv : up_inv a i) (hi1 : 1 ≤ i) (hi : a[i]? = some x)
    (hp : a[(i - 1) / 2]? = some t) (h : t.priority > x.priority) :
    up_inv ((a.set ((i - 1) / 2) x).set i t) ((i - 1) / 2) := by
  obtain ⟨h1, h2⟩ := hinv
  have hx := prio_of_get hi
  have ht := prio_of_get hp
  have hpl := lt_length_of_get hp
  have hpi : (i - 1) / 2 ≠ i := by omega
  have hP : 1 ≤ (i - 1) / 2 → prio a (((i - 1) / 2 - 1) / 2) ≤ t.priority := by
    intro h1p
    rw [← ht]
    exact h1 _ hpl h1p hpi
  constructor
  · intro j hj hj1 hjp
    rw [List.length_set, List.length_set] at hj
    rw [prio_set_set hi hp, prio_set_set hi hp]
    by_cases e1 : j = i
    · subst e1
      rw [if_neg hpi, if_pos rfl, if_pos rfl]
      exact le_of_lt h
    · rw [if_neg e1, if_neg hjp]
      by_cases e2 : (j - 1) / 2 = i
      · rw [if_pos e2]
        have := h2 j hj hj1 e2 hi1
        rw [ht] at this
        exact this
      · rw [if_neg e2]
        have hj' := h1 j hj hj1 e1
        by_cases e3 : (j - 1) / 2 = (i - 1) / 2
        · rw [if_pos e3]
          rw [e3, ht] at hj'
          exact le_trans (le_of_lt h) hj'
        · rw [if_neg e3]
          exact hj'
  · intro j hj hj1 hjp hp1
    rw [List.length_set, List.length_set] at hj
    rw [prio_set_set hi hp, prio_set_set hi hp]
    have g1 : ((i - 1) / 2 - 1) / 2 ≠ i := by omega
    have g2 : ((i - 1) / 2 - 1) / 2 ≠ (i - 1) / 2 := by omega
    have g3 : j ≠ (i - 1) / 2 := by omega
    rw [if_neg g1, if_neg g2]
    by_cases e1 : j = i
    · rw [if_pos e1]
      exact hP hp1
    · rw [if_neg e1, if_neg g3]
      have hj' := h1 j hj hj1 e1
      rw [hjp, ht] at hj'
      exact le_trans (hP hp1) hj'

theorem up_inv_exit {a : dynarray (pq_node α)} {k : Nat} (hinv : up_inv a k)
    (hk : prio a ((k - 1) / 2) ≤ prio a k) : min_heap a := by
  intro j hj hj1
  by_cases e : j = k
  · subst e; exact hk
  · exact hinv.1 j hj hj1 e

/-- On an array that is a min-heap except possibly at index `i` (see `up_inv`),
`perc_up` from `i` completes and yields a permutation of the array that is a
min-heap. -/
theorem perc_up_heap (a : dynarray (pq_node α)) (i : Nat) (hil : i < a.length)
    (hinv : up_inv a i) :
    ∃ b, perc_up a (i : Int) = Res.ok b ∧ b.Perm a ∧ min_heap b := by
  obtain ⟨b, k, hb, _, _, ⟨hperm, hup⟩, hk⟩ :=
    perc_up_rule (fun c m => c.Perm a ∧ up_inv c m)
      (fun c m x t hc hm1 hx ht hlt =>
        ⟨(set_set_perm hx ht).trans hc.1, up_inv_step c m x t hc.2 hm1 hx ht hlt⟩)
      a i hil ⟨List.Perm.refl a, hinv⟩
  exact ⟨b, hb, hperm, up_inv_exit hup hk⟩

/-- Without any assumption on the contents, `perc_up` from an index inside the
array completes and yields a permutation of the array. -/
theorem perc_up_perm (a : dynarray (pq_node α)) (i : Nat) (hil : i < a.length) :
    ∃ b, perc_up a (i : Int) = Res.ok b ∧ b.Perm a := by
  obtain ⟨b, k, hb, _, _, hperm, _⟩ :=
    perc_up_rule (fun c _ => c.Perm a)
      (fun c m x t hc _ hx ht _ => (set_set_perm hx ht).trans hc)
      a i hil (List.Perm.refl a)
  exact ⟨b, hb, hperm⟩

end PercUpHeap

/-! ## `get_min_child` and the loop of `perc_down` -/

section PercDown

variable {α : Type}

theorem int_wrap_of_range {x : Int} (h1 : -2147483648 ≤ x) (h2 : x < 2147483648) :
    int_wrap x = x := by
  unfold int_wrap
  omega

theorem get_min_child_leaf (a : dynarray (pq_node α)) (i : Nat) (hi : i < 1073741824)
    (h : a.length ≤ 2 * i + 1) : get_min_child a (i : Int) = Res.ok (-1) := by
  have w1 : int_wrap ((i : Int) * 2) = (i : Int) * 2 :=
    int_wrap_of_range (by omega) (by omega)
  have w2 : int_wrap ((i : Int) * 2 + 1) = (i : Int) * 2 + 1 :=
    int_wrap_of_range (by omega) (by omega)
  have h' : (a.length : Int) ≤ (i : Int) * 2 + 1 := by omega
  simp [get_min_child, dynarray_size, w1, w2, h']

theorem get_min_child_inner (a : dynarray (pq_node α)) (i : Nat)
    (hn : a.length ≤ 1073741824) (h : 2 * i + 1 < a.length) :
    get_min_child a (i : Int) = Res.ok ((mc a i : Nat) : Int) := by
  have w1 : int_wrap ((i : Int) * 2) = (i : Int) * 2 :=
    int_wrap_of_range (by omega) (by omega)
  have w2 : int_wrap ((i : Int) * 2 + 1) = (i : Int) * 2 + 1 :=
    int_wrap_of_range (by omega) (by omega)
  have w3 : int_wrap ((i : Int) * 2 + 1 + 1) = (i : Int) * 2 + 1 + 1 :=
    int_wrap_of_range (by omega) (by omega)
  have h' : ¬ ((a.length : Int) ≤ (i : Int) * 2 + 1) := by omega
  have e1 : (i : Int) * 2 + 1 = ((2 * i + 1 : Nat) : Int) := by push_cast; ring
  have e2 : (i : Int) * 2 + 1 + 1 = ((2 * i + 2 : Nat) : Int) := by push_cast; ring
  by_cases h2 : a.length ≤ 2 * i + 2
  · have h2' : (a.length : Int) ≤ (i : Int) * 2 + 1 + 1 := by omega
    unfold get_min_child
    simp only [dynarray_size, ge_iff_le, w1, w2, w3, if_neg h', if_pos h2', mc, if_pos h2,
      Res.pure_eq]
    rw [e1]
  · have h2' : ¬ ((a.length : Int) ≤ (i : Int) * 2 + 1 + 1) := by omega
    have hr2 : 2 * i + 2 < a.length := not_le.1 h2
    have hl := List.getElem?_eq_getElem h
    have hr := List.getElem?_eq_getElem hr2
    have gl := dynarray_get_nat hl
    have gr := dynarray_get_nat hr
    have pl := prio_of_get hl
    have pr := prio_of_get hr
    unfold get_min_child
    simp only [dynarray_size, ge_iff_le, w1, w2, w3, if_neg h', if_neg h2']
    rw [e2, e1, gl, gr]
    simp only [Res.ok_bind, mc, if_neg h2, pl, pr, Res.pure_eq]
    by_cases h3 : a[2 * i + 1].priority > a[2 * i + 2].priority
    · rw [if_pos h3, if_pos h3]
    · rw [if_neg h3, if_neg h3]

theorem mc_cases (a : dynarray (pq_node α)) (i : Nat) :
    mc a i = 2 * i + 1 ∨ (mc a i = 2 * i + 2 ∧ 2 * i + 2 < a.length) := by
  unfold mc
  split_ifs <;> omega

theorem mc_min (a : dynarray (pq_node α)) (i j : Nat) (hj : j < a.length)
    (hj1 : 1 ≤ j) (hji : (j - 1) / 2 = i) : prio a (mc a i) ≤ prio a j := by
  have hc : j = 2 * i + 1 ∨ j = 2 * i + 2 := by omega
  unfold mc
  rcases hc with hc | hc
  · subst hc
    split_ifs with h1 h2
    · exact le_refl _
    · exact le_of_lt h2
    · exact le_refl _
  · subst hc
    split_ifs with h1 h2
    · omega
    · exact le_refl _
    · exact not_lt.1 h2

theorem perc_down_loop_leaf (fuel : Nat) (a : dynarray (pq_node α)) (i : Nat)
    (hi : i < 1073741824) (h : a.length ≤ 2 * i + 1) :
    perc_down_loop (fuel + 1) a (i : Int) = Res.ok a := by
  rw [perc_down_loop, get_min_child_leaf a i hi h]
  simp

theorem perc_down_loop_stop (fuel : Nat) {a : dynarray (pq_node α)} {i : Nat}
    {x y : pq_node α} (hn : a.length ≤ 1073741824) (h : 2 * i + 1 < a.length)
    (hi : a[i]? = some x) (hm : a[mc a i]? = some y) (hlt : ¬ y.priority < x.priority) :
    perc_down_loop (fuel + 1) a (i : Int) = Res.ok a := by
  rw [perc_down_loop, get_min_child_inner a i hn h]
  have hne : ¬ (((mc a i : Nat) : Int) = -1) := by omega
  simp [hne, dynarray_get_nat hi, dynarray_get_nat hm, hlt]

theorem perc_down_loop_swap (fuel : Nat) {a : dynarray (pq_node α)} {i : Nat}
    {x y : pq_node α} (hn : a.length ≤ 1073741824) (h : 2 * i + 1 < a.length)
    (hi : a[i]? = some x) (hm : a[mc a i]? = some y) (hlt : y.priority < x.priority) :
    perc_down_loop (fuel + 1) a (i : Int) =
      perc_down_loop fuel ((a.set (mc a i) x).set i y) ((mc a i : Nat) : Int) := by
  rw [perc_down_loop, get_min_child_inner a i hn h]
  have hne : ¬ (((mc a i : Nat) : Int) = -1) := by omega
  have hml := lt_length_of_get hm
  have hil := lt_length_of_get hi
  have hs1 := dynarray_set_nat x hml
  have hs2 : dynarray_set (a.set (mc a i) x) (i : Int) y =
      Res.ok ((a.set (mc a i) x).set i y) :=
    dynarray_set_nat y (by simpa using hil)
  simp [hne, dynarray_get_nat hi, dynarray_get_nat hm, hlt, hs1, hs2]

/-- Loop rule for `perc_down` on an array of at most `2^30` entries: a property
`Inv` of the array and the current index that holds at entry and is kept by
every exchange of a node with its smaller chosen child holds at exit, where the
loop has stopped at an index that is a leaf or whose chosen child does not have
a smaller priority. The budget only has to exceed the distance from the start
index to the size. -/
theorem perc_down_loop_rule (Inv : dynarray (pq_node α) → Nat → Prop)
    (hstep : ∀ (a : dynarray (pq_node α)) (i : Nat) (x y : pq_node α), Inv a i →
      2 * i + 1 < a.length → a[i]? = some x → a[mc a i]? = some y →
      y.priority < x.priority → Inv ((a.set (mc a i) x).set i y) (mc a i)) :
    ∀ (fuel : Nat) (a : dynarray (pq_node α)) (i : Nat),
      a.length ≤ 1073741824 → i < 1073741824 → a.length - i < fuel → Inv a i →
      ∃ (b : dynarray (pq_node α)) (k : Nat),
        perc_down_loop fuel a (i : Int) = Res.ok b ∧
        b.length = a.length ∧ i ≤ k ∧ Inv b k ∧
        (2 * k + 1 < b.length → prio b k ≤ prio b (mc b k)) := by
  intro fuel
  induction fuel with
  | zero => intro a i _ _ hf; omega
  | succ fuel ih =>
    intro a i hn hi0 hf hinv
    by_cases hleaf : a.length ≤ 2 * i + 1
    · rw [perc_down_loop_leaf fuel a i hi0 hleaf]
      exact ⟨a, i, rfl, rfl, le_refl _, hinv, fun h => by omega⟩
    · have hin : 2 * i + 1 < a.length := not_le.1 hleaf
      have hil : i < a.length := by omega
      have hml : mc a i < a.length := by
        rcases mc_cases a i with h | h <;> omega
      have hi := List.getElem?_eq_getElem hil
      have hm := List.getElem?_eq_getElem hml
      by_cases hlt : a[mc a i].priority < a[i].priority
      · rw [perc_down_loop_swap fuel hn hin hi hm hlt]
        have hinv' := hstep a i _ _ hinv hin hi hm hlt
        have hlen : ((a.set (mc a i) a[i]).set i a[mc a i]).length = a.length := by simp
        have hgt : i < mc a i := by
          rcases mc_cases a i with h | h <;> omega
        obtain ⟨b, k, hb, hbl, hk, hbi, hbp⟩ :=
          ih _ (mc a i) (by rw [hlen]; exact hn) (by omega) (by rw [hlen]; omega) hinv'
        exact ⟨b, k, hb, by rw [hbl, hlen], by omega, hbi, hbp⟩
      · rw [perc_down_loop_stop fuel hn hin hi hm hlt]
        refine ⟨a, i, rfl, rfl, le_refl _, hinv, fun _ => ?_⟩
        rw [prio_of_get hi, prio_of_get hm]
        exact not_lt.1 hlt

theorem perc_down_rule (Inv : dynarray (pq_node α) → Nat → Prop)
    (hstep : ∀ (a : dynarray (pq_node α)) (i : Nat) (x y : pq_node α), Inv a i →
      2 * i + 1 < a.length → a[i]? = some x → a[mc a i]? = some y →
      y.priority < x.priority → Inv ((a.set (mc a i) x).set i y) (mc a i))
    (a : dynarray (pq_node α)) (i : Nat) (hn : a.length ≤ 1073741824)
    (hi : i < 1073741824) (hinv : Inv a i) :
    ∃ (b : dynarray (pq_node α)) (k : Nat),
      perc_down a (i : Int) = Res.ok b ∧
      b.length = a.length ∧ i ≤ k ∧ Inv b k ∧
      (2 * k + 1 < b.length → prio b k ≤ prio b (mc b k)) :=
  perc_down_loop_rule Inv hstep (a.length + 1) a i hn hi (by omega) hinv

end PercDown

/-! ## `perc_down` restores the heap -/

section PercDownHeap

variable {α : Type}

theorem down_inv_step (a : dynarray (pq_node α)) (i : Nat) (x y : pq_node α)
    (hinv : down_inv a i) (hin : 2 * i + 1 < a.length) (hi : a[i]? = some x)
    (hm : a[mc a i]? = some y) (hlt : y.priority < x.priority) :
    down_inv ((a.set (mc a i) x).set i y) (mc a i) := by
  obtain ⟨h1, h2⟩ := hinv
  have hx := prio_of_get hi
  have hy := prio_of_get hm
  have hml := lt_length_of_get hm
  have hmin := mc_min a i
  have hmp : (mc a i - 1) / 2 = i := by
    rcases mc_cases a i with h | h <;> omega
  have hm1 : 1 ≤ mc a i := by
    rcases mc_cases a i with h | h <;> omega
  have hmi : mc a i ≠ i := by omega
  generalize mc a i = m at *
  constructor
  · intro j hj hj1 hjp
    rw [List.length_set, List.length_set] at hj
    rw [prio_set_set hi hm, prio_set_set hi hm]
    rw [if_neg hjp]
    by_cases e1 : j = i
    · subst e1
      have g1 : (j - 1) / 2 ≠ j := by omega
      rw [if_neg g1, if_pos rfl]
      have := h2 m hml hm1 hmp hj1
      rw [hy] at this
      exact this
    · rw [if_neg e1]
      by_cases e2 : j = m
      · subst e2
        rw [if_pos hmp, if_pos rfl]
        exact le_of_lt hlt
      · rw [if_neg e2]
        by_cases e3 : (j - 1) / 2 = i
        · rw [if_pos e3, ← hy]
          exact hmin j hj hj1 e3
        · rw [if_neg e3]
          exact h1 j hj hj1 e3
  · intro j hj hj1 hjp _
    rw [List.length_set, List.length_set] at hj
    rw [prio_set_set hi hm, prio_set_set hi hm]
    have g1 : j ≠ i := by omega
    have g2 : j ≠ m := by omega
    rw [if_pos hmp, if_neg g1, if_neg g2, ← hy]
    have := h1 j hj hj1 (by omega)
    rw [hjp] at this
    exact this

theorem down_inv_exit {a : dynarray (pq_node α)} {k : Nat} (hinv : down_inv a k)
    (hk : 2 * k + 1 < a.length → prio a k ≤ prio a (mc a k)) : min_heap a := by
  intro j hj hj1
  by_cases e : (j - 1) / 2 = k
  · rw [e]
    exact le_trans (hk (by omega)) (mc_min a k j hj hj1 e)
  · exact hinv.1 j hj hj1 e

/-- Both subtrees of the root are heaps: the min-heap condition holds at every
index whose parent is not the root. -/
theorem down_inv_zero_iff (a : dynarray (pq_node α)) :
    down_inv a 0 ↔ ∀ j, j < a.length → 3 ≤ j → prio a ((j - 1) / 2) ≤ prio a j := by
  constructor
  · intro h j hj hj3
    exact h.1 j hj (by omega) (by omega)
  · intro h
    refine ⟨fun j hj hj1 hne => h j hj (by omega), fun j _ _ _ h0 => by omega⟩

/-- On an array of at most `2^30` entries that is a min-heap except possibly at
index `i` and its children (see `down_inv`), `perc_down` from `i` completes and
yields a permutation of the array that is a min-heap. -/
theorem perc_down_heap (a : dynarray (pq_node α)) (i : Nat)
    (hn : a.length ≤ 1073741824) (hi : i < 1073741824) (hinv : down_inv a i) :
    ∃ b, perc_down a (i : Int) = Res.ok b ∧ b.Perm a ∧ min_heap b := by
  obtain ⟨b, k, hb, _, _, ⟨hperm, hdown⟩, hk⟩ :=
    perc_down_rule (fun c m => c.Perm a ∧ down_inv c m)
      (fun c m x y hc hin hx hy hlt =>
        ⟨(set_set_perm hx hy).trans hc.1, down_inv_step c m x y hc.2 hin hx hy hlt⟩)
      a i hn hi ⟨List.Perm.refl a, hinv⟩
  exact ⟨b, hb, hperm, down_inv_exit hdown hk⟩

/-- Without any assumption on the contents, `perc_down` on an array of at most
`2^30` entries completes and yields a permutation of the array. -/
theorem perc_down_perm (a : dynarray (pq_node α)) (i : Nat)
    (hn : a.length ≤ 1073741824) (hi : i < 1073741824) :
    ∃ b, perc_down a (i : Int) = Res.ok b ∧ b.Perm a := by
  obtain ⟨b, k, hb, _, _, hperm, _⟩ :=
    perc_down_rule (fun c _ => c.Perm a)
      (fun c m x y hc _ hx hy _ => (set_set_perm hx hy).trans hc)
      a i hn hi (List.Perm.refl a)
  exact ⟨b, hb, hperm⟩

end PercDownHeap

/-! ## `pq_insert`, `pq_insert_node` and `pq_remove_first` -/

section Operations

variable {α : Type}

theorem prio_append_left (a l : dynarray (pq_node α)) {i : Nat} (h : i < a.length) :
    prio (a ++ l) i = prio a i := by
  unfold prio
  rw [List.getElem?_append_left h]

theorem up_inv_append (a : dynarray (pq_node α)) (n : pq_node α) (h : min_heap a) :
    up_inv (a ++ [n]) a.length := by
  constructor
  · intro j hj hj1 hne
    have hj' : j < a.length := by
      simp at hj; omega
    rw [prio_append_left a [n] hj', prio_append_left a [n] (by omega)]
    exact h j hj' hj1
  · intro j hj hj1 hp _
    simp at hj
    omega

/-- The call `pq_node_create(val, priority)` has no defined value. -/
theorem pq_node_create_undef (v : α) (p : Int) :
    (pq_node_create v p : Res (pq_node α)) = Res.undef := rfl

/-- Every call of `pq_insert` is undefined: it uses the value of
`pq_node_create`. -/
theorem pq_insert_undef (q : pq α) (v : α) (p : Int) : pq_insert q v p = Res.undef := rfl

/-- The statements of `pq_insert` after the node is obtained, on a queue whose
`next` is a valid insertion index: they complete, both counters go up by one and
the new array is a permutation of the old one with the node added. -/
theorem pq_insert_node_perm (q : pq α) (n : pq_node α) (h0 : 0 ≤ q.next)
    (h1 : q.next ≤ dynarray_size q.arr) :
    ∃ b, pq_insert_node q n =
        Res.ok { last := int_wrap (q.last + 1), next := int_wrap (q.next + 1), arr := b } ∧
      b.Perm (n :: q.arr) := by
  obtain ⟨k, hk⟩ := Int.eq_ofNat_of_zero_le h0
  have hkl : k ≤ q.arr.length := by
    rw [hk] at h1; unfold dynarray_size at h1; omega
  have hlen : (q.arr.insertIdx k n).length = q.arr.length + 1 :=
    List.length_insertIdx _ _ hkl
  obtain ⟨b, hb, hperm⟩ := perc_up_perm (q.arr.insertIdx k n) k (by omega)
  refine ⟨b, ?_, hperm.trans (List.perm_insertIdx _ _ hkl)⟩
  unfold pq_insert_node dynarray_insert
  rw [hk] at h1 ⊢
  simp [h1, hb]

/-- The statements of `pq_insert` after the node is obtained, on a heap whose
`next` is the size of the array: the new array is again a min-heap. -/
theorem pq_insert_node_heap (q : pq α) (n : pq_node α)
    (hn : q.next = dynarray_size q.arr) (hh : min_heap q.arr) :
    ∃ b, pq_insert_node q n =
        Res.ok { last := int_wrap (q.last + 1), next := int_wrap (q.next + 1), arr := b } ∧
      b.Perm (n :: q.arr) ∧ min_heap b := by
  have hlen : (q.arr ++ [n]).length = q.arr.length + 1 := by simp
  obtain ⟨b, hb, hperm, hheap⟩ :=
    perc_up_heap (q.arr ++ [n]) q.arr.length (by omega) (up_inv_append q.arr _ hh)
  refine ⟨b, ?_, hperm.trans (List.perm_append_singleton _ _), hheap⟩
  unfold pq_insert_node dynarray_insert
  rw [hn]
  unfold dynarray_size
  simp [List.insertIdx_length_self, hb]

end Operations

section Removal

variable {α : Type}

theorem down_inv_after_move (a : dynarray (pq_node α)) (l : pq_node α) (h : min_heap a) :
    down_inv ((a.set 0 l).eraseIdx (a.length - 1)) 0 := by
  rw [down_inv_zero_iff]
  intro j hj hj3
  have hlen : ((a.set 0 l).eraseIdx (a.length - 1)).length ≤ a.length - 1 := by
    have := List.length_eraseIdx (a.set 0 l) (a.length - 1)
    rw [this]
    simp only [List.length_set]
    split_ifs <;> omega
  have hja : j < a.length - 1 := by omega
  have key : ∀ k, 1 ≤ k → k < a.length - 1 →
      prio ((a.set 0 l).eraseIdx (a.length - 1)) k = prio a k := by
    intro k hk1 hk
    unfold prio
    rw [List.getElem?_eraseIdx, if_pos hk, List.getElem?_set]
    have : ¬ (0 = k) := by omega
    rw [if_neg this]
  rw [key j (by omega) hja, key ((j - 1) / 2) (by omega) (by omega)]
  exact h j (by omega) (by omega)

theorem perm_after_move {β : Type} (a : List β) (n l : β) (k : Nat)
    (h0 : a[0]? = some n) (hk : a[k]? = some l) :
    a.Perm (n :: (a.set 0 l).eraseIdx k) := by
  have hk' : (a.set 0 l)[k]? = some l := by
    rw [List.getElem?_set]
    by_cases e : 0 = k
    · subst e; simp [lt_length_of_get h0]
    · simp [e, hk]
  have h1 : (a.set 0 l).Perm (l :: (a.set 0 l).eraseIdx k) :=
    perm_cons_eraseIdx _ k l hk'
  have h2 : (l :: a).Perm (n :: a.set 0 l) := cons_perm_cons_set l a 0 n h0
  have h3 : (l :: a).Perm (l :: n :: (a.set 0 l).eraseIdx k) :=
    h2.trans ((List.Perm.cons n h1).trans (List.Perm.swap _ _ _))
  exact h3.cons_inv

theorem length_after_move_le {β : Type} (a : List β) (l : β) (k : Nat) :
    ((a.set 0 l).eraseIdx k).length ≤ a.length := by
  have := List.length_eraseIdx_le (a.set 0 l) k
  simpa using this

/-- Function `pq_remove_first` on a non-empty queue of at most `2^30` entries
whose `last` is an index of the array: it completes, returns the payload of the
node at index 0, both counters go down by one and the old array is a
permutation of that node followed by the new array. -/
theorem pq_remove_first_perm (q : pq α) (n : pq_node α) (h0 : q.arr[0]? = some n)
    (hl0 : 0 ≤ q.last) (hl1 : q.last < dynarray_size q.arr)
    (hn : q.arr.length ≤ 1073741824) :
    ∃ b, pq_remove_first q =
        Res.ok (n.val,
          { last := int_wrap (q.last - 1), next := int_wrap (q.next - 1), arr := b }) ∧
      q.arr.Perm (n :: b) := by
  obtain ⟨k, hk⟩ := Int.eq_ofNat_of_zero_le hl0
  have hkl : k < q.arr.length := by
    rw [hk] at hl1; unfold dynarray_size at hl1; omega
  have hkg := List.getElem?_eq_getElem hkl
  obtain ⟨b, hb, hperm⟩ := perc_down_perm ((q.arr.set 0 q.arr[k]).eraseIdx k) 0
    (le_trans (length_after_move_le _ _ _) hn) (by decide)
  refine ⟨b, ?_, (perm_after_move q.arr n _ k h0 hkg).trans (List.Perm.cons n hperm.symm)⟩
  have g0 : dynarray_get q.arr 0 = Res.ok n := dynarray_get_nat h0
  have gk := dynarray_get_nat hkg
  have s0 : dynarray_set q.arr 0 q.arr[k] = Res.ok (q.arr.set 0 q.arr[k]) :=
    dynarray_set_nat _ (lt_length_of_get h0)
  have hb' : perc_down ((q.arr.set 0 q.arr[k]).eraseIdx k) 0 = Res.ok b := hb
  unfold pq_remove_first
  rw [hk, g0, gk]
  simp only [Res.ok_bind, s0]
  unfold dynarray_remove dynarray_size
  simp [hkl, hb']

/-- Function `pq_remove_first` on a non-empty heap of at most `2^30` entries
whose `last` is `size - 1`: the new array is again a min-heap. -/
theorem pq_remove_first_heap (q : pq α) (n : pq_node α) (h0 : q.arr[0]? = some n)
    (hl : q.last = dynarray_size q.arr - 1) (hh : min_heap q.arr)
    (hn : q.arr.length ≤ 1073741824) :
    ∃ b, pq_remove_first q =
        Res.ok (n.val,
          { last := int_wrap (q.last - 1), next := int_wrap (q.next - 1), arr := b }) ∧
      q.arr.Perm (n :: b) ∧ min_heap b := by
  have hpos := lt_length_of_get h0
  have hk : q.last = ((q.arr.length - 1 : Nat) : Int) := by
    rw [hl]; unfold dynarray_size; omega
  have hkl : q.arr.length - 1 < q.arr.length := by omega
  have hkg := List.getElem?_eq_getElem hkl
  obtain ⟨b, hb, hperm, hheap⟩ :=
    perc_down_heap _ 0 (le_trans (length_after_move_le _ _ _) hn) (by decide)
      (down_inv_after_move q.arr q.arr[q.arr.length - 1] hh)
  refine ⟨b, ?_,
    (perm_after_move q.arr n _ _ h0 hkg).trans (List.Perm.cons n hperm.symm), hheap⟩
  have g0 : dynarray_get q.arr 0 = Res.ok n := dynarray_get_nat h0
  have gk := dynarray_get_nat hkg
  have s0 : dynarray_set q.arr 0 q.arr[q.arr.length - 1] =
      Res.ok (q.arr.set 0 q.arr[q.arr.length - 1]) :=
    dynarray_set_nat _ hpos
  have hb' : perc_down ((q.arr.set 0 q.arr[q.arr.length - 1]).eraseIdx
      (q.arr.length - 1)) 0 = Res.ok b := hb
  unfold pq_remove_first
  rw [hk, g0, gk]
  simp only [Res.ok_bind, s0]
  unfold dynarray_remove dynarray_size
  have h1 : 1 ≤ q.arr.length := hpos
  simp [h1, hb']

end Removal

/-! ## The state invariant -/

section Invariant

variable {α : Type}

theorem heap_root_min (a : dynarray (pq_node α)) (h : min_heap a) :
    ∀ i, i < a.length → prio a 0 ≤ prio a i := by
  intro i
  induction i using Nat.strong_induction_on with
  | _ i ih =>
    intro hi
    rcases Nat.eq_zero_or_pos i with h0 | h0
    · subst h0; exact le_refl _
    · exact le_trans (ih ((i - 1) / 2) (by omega) (by omega)) (h i hi h0)

theorem heap_root_le_mem (a : dynarray (pq_node α)) (h : min_heap a) (n : pq_node α)
    (h0 : a[0]? = some n) (e : pq_node α) (he : e ∈ a) : n.priority ≤ e.priority := by
  obtain ⟨i, hi⟩ := List.getElem?_of_mem he
  have := heap_root_min a h i (lt_length_of_get hi)
  rw [prio_of_get h0, prio_of_get hi] at this
  exact this

theorem pq_inv_create : pq_inv (pq_create : pq α) := by
  refine ⟨⟨rfl, rfl⟩, ?_⟩
  intro i hi
  simp [pq_create, dynarray_create] at hi

theorem pq_isempty_eq_one_iff (q : pq α) : pq_isempty q = 1 ↔ q.arr = [] := by
  unfold pq_isempty dynarray_size
  by_cases h : q.arr = []
  · simp [h]
  · have : ¬ ((q.arr.length : Int) = 0) := by
      have := List.length_pos.2 h
      omega
    simp [h, this]

theorem pq_isempty_eq_zero_iff (q : pq α) : pq_isempty q = 0 ↔ q.arr ≠ [] := by
  unfold pq_isempty dynarray_size
  by_cases h : q.arr = []
  · simp [h]
  · have : ¬ ((q.arr.length : Int) = 0) := by
      have := List.length_pos.2 h
      omega
    simp [h, this]

theorem get_zero_of_ne_nil {β : Type} {a : List β} (h : a ≠ []) :
    ∃ n, a[0]? = some n := by
  cases a with
  | nil => exact absurd rfl h
  | cons x t => exact ⟨x, by simp⟩

/-- From a state of fewer than `2^30` entries that satisfies the invariant, the
statements of `pq_insert` after the node is obtained complete in a state that
satisfies it, holding the old entries and the new node. -/
theorem pq_insert_node_inv (q : pq α) (n : pq_node α) (h : pq_inv q)
    (hsz : q.arr.length < 1073741824) :
    ∃ q', pq_insert_node q n = Res.ok q' ∧ pq_inv q' ∧ q'.arr.Perm (n :: q.arr) := by
  obtain ⟨⟨hn, hl⟩, hh⟩ := h
  obtain ⟨b, hb, hperm, hheap⟩ := pq_insert_node_heap q n hn hh
  have hlen := hperm.length_eq
  simp only [List.length_cons] at hlen
  refine ⟨_, hb, ⟨⟨?_, ?_⟩, hheap⟩, hperm⟩
  · show int_wrap (q.next + 1) = dynarray_size b
    unfold dynarray_size at hn ⊢
    rw [int_wrap_of_range (by omega) (by omega)]
    omega
  · show int_wrap (q.last + 1) = dynarray_size b - 1
    unfold dynarray_size at hl ⊢
    rw [int_wrap_of_range (by omega) (by omega)]
    omega

/-- From a non-empty state of at most `2^30` entries that satisfies the
invariant, `pq_remove_first` completes in a state that satisfies it; it returns
the payload of the node at index 0 and the new state holds the other entries. -/
theorem pq_remove_first_inv (q : pq α) (n : pq_node α) (h : pq_inv q)
    (hsz : q.arr.length ≤ 1073741824) (h0 : q.arr[0]? = some n) :
    ∃ q', pq_remove_first q = Res.ok (n.val, q') ∧ pq_inv q' ∧
      q.arr.Perm (n :: q'.arr) := by
  obtain ⟨⟨hn, hl⟩, hh⟩ := h
  obtain ⟨b, hb, hperm, hheap⟩ := pq_remove_first_heap q n h0 hl hh hsz
  have hlen := hperm.length_eq
  simp only [List.length_cons] at hlen
  refine ⟨_, hb, ⟨⟨?_, ?_⟩, hheap⟩, hperm⟩
  · show int_wrap (q.next - 1) = dynarray_size b
    unfold dynarray_size at hn ⊢
    rw [int_wrap_of_range (by omega) (by omega)]
    omega
  · show int_wrap (q.last - 1) = dynarray_size b - 1
    unfold dynarray_size at hl ⊢
    rw [int_wrap_of_range (by omega) (by omega)]
    omega

/-- Every state reached by supplying nodes to the statements of `pq_insert` that
follow the call of `pq_node_create`, and by `pq_remove_first`, satisfies the
invariant and holds as many entries as the inserts made minus the removals
made. -/
theorem reach_nodes_inv {i r : Nat} {q : pq α} (h : ReachNodes i r q) :
    pq_inv q ∧ q.arr.length + r = i := by
  induction h with
  | create => exact ⟨pq_inv_create, rfl⟩
  | insert n _ hsz hq ih =>
    obtain ⟨q1, h1, hinv, hperm⟩ := pq_insert_node_inv _ n ih.1
      (by unfold dynarray_size at hsz; omega)
    rw [h1] at hq
    cases hq
    refine ⟨hinv, ?_⟩
    have := hperm.length_eq
    simp only [List.length_cons] at this
    omega
  | remove _ hsz hne hq ih =>
    obtain ⟨n, h0⟩ := get_zero_of_ne_nil ((pq_isempty_eq_zero_iff _).1 hne)
    obtain ⟨q1, h1, hinv, hperm⟩ := pq_remove_first_inv _ n ih.1
      (by unfold dynarray_size at hsz; omega) h0
    rw [h1] at hq
    cases hq
    refine ⟨hinv, ?_⟩
    have := hperm.length_eq
    simp only [List.length_cons] at this
    omega

end Invariant

/-! ## Filling and draining a queue -/

section Drain

variable {α : Type}

theorem descending_succ (n : Nat) :
    descending (n + 1) = (n, (n : Int)) :: descending n := by
  simp [descending, List.range_succ]

/-- Inserting a non-empty list of pairs is undefined: the first `pq_insert` call
is. -/
theorem insert_all_cons_undef (q : pq α) (e : α × Int) (rest : List (α × Int)) :
    insert_all q (e :: rest) = Res.undef := rfl

theorem insert_nodes_inv : ∀ (l : List (pq_node α)) (q : pq α), pq_inv q →
    q.arr.length + l.length ≤ 1073741824 →
    ∃ q', insert_nodes q l = Res.ok q' ∧ pq_inv q' ∧ q'.arr.Perm (l ++ q.arr)
  | [], q, h, _ => ⟨q, rfl, h, by simp⟩
  | n :: rest, q, h, hsz => by
    simp only [List.length_cons] at hsz
    obtain ⟨q1, h1, hinv1, hperm1⟩ := pq_insert_node_inv q n h (by omega)
    have hlen1 := hperm1.length_eq
    simp only [List.length_cons] at hlen1
    obtain ⟨q2, h2, hinv2, hperm2⟩ := insert_nodes_inv rest q1 hinv1 (by omega)
    refine ⟨q2, ?_, hinv2, ?_⟩
    · simp [insert_nodes, h1, h2]
    · have h4 : (rest ++ q1.arr).Perm (rest ++ n :: q.arr) :=
        List.Perm.append_left rest hperm1
      exact hperm2.trans (h4.trans (by simp))

theorem pq_first_priority_of_get {q : pq α} {n : pq_node α} (h0 : q.arr[0]? = some n) :
    pq_first_priority q = Res.ok n.priority := by
  have g0 : dynarray_get q.arr 0 = Res.ok n := dynarray_get_nat h0
  simp [pq_first_priority, g0]

theorem pq_first_of_get {q : pq α} {n : pq_node α} (h0 : q.arr[0]? = some n) :
    pq_first q = Res.ok n.val := by
  have g0 : dynarray_get q.arr 0 = Res.ok n := dynarray_get_nat h0
  simp [pq_first, g0]

/-- Draining a queue that satisfies the invariant and holds `n ≤ 2^30` entries
takes `n` removals and yields the held entries in non-decreasing order of
priority. -/
theorem drain_inv : ∀ (n : Nat) (q : pq α), pq_inv q → q.arr.length = n →
    n ≤ 1073741824 →
    ∃ out, drain n q = Res.ok out ∧ out.Perm (q.arr.map entry) ∧
      (out.map Prod.snd).Sorted (· ≤ ·)
  | 0, q, _, hlen, _ => by
    have hnil : q.arr = [] := List.length_eq_zero.1 hlen
    have he : ¬ (pq_isempty q = 0) := by
      rw [(pq_isempty_eq_one_iff q).2 hnil]; decide
    exact ⟨[], by simp [drain, he], by simp [hnil], by simp⟩
  | n + 1, q, hinv, hlen, hsz => by
    have hne : q.arr ≠ [] := by
      intro h; rw [h] at hlen; simp at hlen
    have he : pq_isempty q = 0 := (pq_isempty_eq_zero_iff q).2 hne
    obtain ⟨n0, h0⟩ := get_zero_of_ne_nil hne
    obtain ⟨q1, h1, hinv1, hperm1⟩ := pq_remove_first_inv q n0 hinv (by omega) h0
    have hlen1 : q1.arr.length = n := by
      have := hperm1.length_eq
      simp only [List.length_cons] at this
      omega
    obtain ⟨out, ho, hoperm, hosorted⟩ := drain_inv n q1 hinv1 hlen1 (by omega)
    refine ⟨(n0.val, n0.priority) :: out, ?_, ?_, ?_⟩
    · simp [drain, he, pq_first_priority_of_get h0, h1, ho]
    · have h2 : ((n0.val, n0.priority) :: out).Perm (entry n0 :: q1.arr.map entry) :=
        List.Perm.cons _ hoperm
      exact h2.trans (hperm1.map entry).symm
    · rw [List.map_cons, List.sorted_cons]
      refine ⟨?_, hosorted⟩
      intro b hb
      obtain ⟨pr, hpr, rfl⟩ := List.mem_map.1 hb
      have hpr' : pr ∈ q1.arr.map entry := hoperm.subset hpr
      obtain ⟨e, hemem, rfl⟩ := List.mem_map.1 hpr'
      have hein : e ∈ q.arr := hperm1.symm.subset (List.mem_cons_of_mem _ hemem)
      exact heap_root_le_mem q.arr hinv.2 n0 h0 e hein

/-- Supplying at most `2^30` nodes, one after the other, to the statements of
`pq_insert` that follow the call of `pq_node_create`, and draining the queue
afterwards, takes as many removals as inserts and yields the entries of the
nodes in non-decreasing order of priority. -/
theorem fill_nodes_drain (l : List (pq_node α)) (hsz : l.length ≤ 1073741824) :
    ∃ q out, insert_nodes pq_create l = Res.ok q ∧ drain l.length q = Res.ok out ∧
      out.Perm (l.map entry) ∧ (out.map Prod.snd).Sorted (· ≤ ·) := by
  obtain ⟨q, hq, hinv, hperm⟩ := insert_nodes_inv l pq_create pq_inv_create
    (by simpa [pq_create, dynarray_create] using hsz)
  have hperm' : q.arr.Perm l := by
    simpa [pq_create, dynarray_create] using hperm
  have hlen : q.arr.length = l.length := hperm'.length_eq
  obtain ⟨out, ho, hoperm, hosorted⟩ := drain_inv l.length q hinv hlen hsz
  exact ⟨q, out, hq, ho, hoperm.trans (hperm'.map entry), hosorted⟩

end Drain

/-! ## A queue with a single entry, and the empty queue -/

section Single

variable {α : Type}

theorem perc_down_nil (i : Nat) (hi : i < 1073741824) :
    perc_down ([] : dynarray (pq_node α)) (i : Int) = Res.ok [] := by
  unfold perc_down
  exact perc_down_loop_leaf 0 [] i hi (by simp)

theorem pq_insert_node_create (n : pq_node α) :
    pq_insert_node pq_create n = Res.ok { last := 0, next := 1, arr := [n] } := by
  obtain ⟨b, hb, hperm⟩ :=
    pq_insert_node_perm (pq_create : pq α) n (le_refl (0 : Int)) (le_refl (0 : Int))
  have hbe : b = [n] := List.perm_singleton.1 hperm
  subst hbe
  exact hb

theorem pq_remove_first_single (x : α) (p : Int) :
    pq_remove_first { last := 0, next := 1, arr := [pq_node.mk x p] } =
      Res.ok (x, pq_create) := by
  have h0 : ([pq_node.mk x p])[0]? = some (pq_node.mk x p) := rfl
  have g0 : dynarray_get [pq_node.mk x p] 0 = Res.ok (pq_node.mk x p) :=
    dynarray_get_nat h0
  have s0 : dynarray_set [pq_node.mk x p] 0 (pq_node.mk x p) = Res.ok [pq_node.mk x p] :=
    @dynarray_set_nat _ _ 0 _ (by simp)
  have r0 : dynarray_remove [pq_node.mk x p] 0 = Res.ok [] := by
    simp [dynarray_remove, dynarray_size]
  have d0 : perc_down ([] : dynarray (pq_node α)) 0 = Res.ok [] :=
    perc_down_nil 0 (by decide)
  unfold pq_remove_first
  simp only [g0, s0, r0, d0, Res.ok_bind, Res.pure_eq]
  rfl

theorem dynarray_get_nil {β : Type} (idx : Int) :
    dynarray_get ([] : dynarray β) idx = Res.undef := by
  unfold dynarray_get dynarray_size
  have : ¬ (0 ≤ idx ∧ idx < ((([] : List β).length : Nat) : Int)) := by
    simp only [List.length_nil]
    omega
  rw [if_neg this]

end Single

/-! ## The step budget does not affect results -/

section Budget

variable {α : Type}

theorem Res.bind_eq_ok {β γ : Type} {r : Res β} {f : β → Res γ} {c : γ}
    (h : (r >>= f) = Res.ok c) : ∃ v, r = Res.ok v ∧ f v = Res.ok c := by
  cases r with
  | ok v => exact ⟨v, rfl, h⟩
  | undef => cases h
  | nofuel => cases h

/-- A result of the `perc_up` loop obtained within some budget is the result
within every larger budget. -/
theorem perc_up_loop_budget (fuel : Nat) :
    ∀ (a : dynarray (pq_node α)) (idx parent : Int) (temp : pq_node α)
      (b : dynarray (pq_node α)),
      perc_up_loop fuel a idx parent temp = Res.ok b →
      perc_up_loop (fuel + 1) a idx parent temp = Res.ok b := by
  induction fuel with
  | zero =>
    intro a idx parent temp b h
    rw [perc_up_loop] at h
    cases h
  | succ fuel ih =>
    intro a idx parent temp b h
    rw [perc_up_loop] at h ⊢
    by_cases hp : parent ≥ 0
    · rw [if_pos hp] at h ⊢
      obtain ⟨pn, hpn, h⟩ := Res.bind_eq_ok h
      obtain ⟨cn, hcn, h⟩ := Res.bind_eq_ok h
      rw [hpn, Res.ok_bind, hcn, Res.ok_bind]
      by_cases hlt : pn.priority > cn.priority
      · rw [if_pos hlt] at h ⊢
        obtain ⟨cur, hcur, k1⟩ := Res.bind_eq_ok h
        obtain ⟨a1, ha1, k2⟩ := Res.bind_eq_ok k1
        obtain ⟨a2, ha2, k3⟩ := Res.bind_eq_ok k2
        obtain ⟨t1, ht1, k4⟩ := Res.bind_eq_ok k3
        clear k1 k2 k3
        rw [hcn] at hcur
        cases hcur
        rw [Res.ok_bind, ha1, Res.ok_bind, ha2, Res.ok_bind]
        show (dynarray_get a2 (Int.tdiv (parent - 1) 2) >>= fun temp1 =>
          perc_up_loop (fuel + 1) a2 parent (Int.tdiv (parent - 1) 2) temp1) = Res.ok b
        rw [ht1, Res.ok_bind]
        exact ih _ _ _ _ _ k4
      · rw [if_neg hlt] at h ⊢
        exact h
    · rw [if_neg hp] at h ⊢
      exact h

/-- A result of the `perc_down` loop obtained within some budget is the result
within every larger budget. -/
theorem perc_down_loop_budget (fuel : Nat) :
    ∀ (a : dynarray (pq_node α)) (idx : Int) (b : dynarray (pq_node α)),
      perc_down_loop fuel a idx = Res.ok b →
      perc_down_loop (fuel + 1) a idx = Res.ok b := by
  induction fuel with
  | zero =>
    intro a idx b h
    rw [perc_down_loop] at h
    cases h
  | succ fuel ih =>
    intro a idx b h
    rw [perc_down_loop] at h ⊢
    obtain ⟨m, hm, h⟩ := Res.bind_eq_ok h
    rw [hm, Res.ok_bind]
    by_cases hm1 : m = -1
    · rw [if_pos hm1] at h ⊢
      exact h
    · rw [if_neg hm1] at h ⊢
      obtain ⟨mc, hmc, h⟩ := Res.bind_eq_ok h
      obtain ⟨cn, hcn, h⟩ := Res.bind_eq_ok h
      rw [hmc, Res.ok_bind, hcn, Res.ok_bind]
      by_cases hlt : mc.priority < cn.priority
      · rw [if_pos hlt] at h ⊢
        obtain ⟨t, ht, k1⟩ := Res.bind_eq_ok h
        obtain ⟨cur, hcur, k2⟩ := Res.bind_eq_ok k1
        obtain ⟨a1, ha1, k3⟩ := Res.bind_eq_ok k2
        obtain ⟨a2, ha2, k4⟩ := Res.bind_eq_ok k3
        clear k1 k2 k3
        rw [hmc] at ht
        cases ht
        rw [hcn] at hcur
        cases hcur
        rw [Res.ok_bind, Res.ok_bind, ha1, Res.ok_bind, ha2, Res.ok_bind]
        exact ih _ _ _ k4
      · rw [if_neg hlt] at h ⊢
        exact h

end Budget

/-! ## Budgets, paths to the root -/

section Later

variable {α : Type}

theorem perc_up_loop_budget_le (f g : Nat) (hfg : f ≤ g) (a : dynarray (pq_node α))
    (idx parent : Int) (temp : pq_node α) (b : dynarray (pq_node α))
    (h : perc_up_loop f a idx parent temp = Res.ok b) :
    perc_up_loop g a idx parent temp = Res.ok b := by
  induction g with
  | zero =>
    have : f = 0 := by omega
    subst this; exact h
  | succ g ih =>
    rcases Nat.eq_or_lt_of_le hfg with e | e
    · subst e; exact h
    · exact perc_up_loop_budget g a idx parent temp b (ih (by omega))

theorem perc_down_loop_budget_le (f g : Nat) (hfg : f ≤ g) (a : dynarray (pq_node α))
    (idx : Int) (b : dynarray (pq_node α))
    (h : perc_down_loop f a idx = Res.ok b) :
    perc_down_loop g a idx = Res.ok b := by
  induction g with
  | zero =>
    have : f = 0 := by omega
    subst this; exact h
  | succ g ih =>
    rcases Nat.eq_or_lt_of_le hfg with e | e
    · subst e; exact h
    · exact perc_down_loop_budget g a idx b (ih (by omega))

theorem iterate_parent_bound (i : Nat) :
    ∀ k, parent_idx^[k] i + k ≤ i ∨ parent_idx^[k] i = 0 := by
  intro k
  induction k with
  | zero => left; simp
  | succ k ih =>
    rw [Function.iterate_succ_apply']
    generalize parent_idx^[k] i = m at ih ⊢
    unfold parent_idx
    omega

theorem on_path_self (i : Nat) : on_path i i := ⟨0, by omega, rfl⟩

theorem on_path_parent {i m : Nat} (h : on_path i m) : on_path i ((m - 1) / 2) := by
  obtain ⟨k, hk, rfl⟩ := h
  by_cases h0 : parent_idx^[k] i = 0
  · refine ⟨k, hk, ?_⟩
    rw [h0]
  · refine ⟨k + 1, ?_, ?_⟩
    · rcases iterate_parent_bound i k with h | h
      · omega
      · exact absurd h h0
    · rw [Function.iterate_succ_apply']
      rfl

/-- The bound in `on_path` loses nothing: an index is on the path from `i` to the
root exactly when some number of parent steps from `i` reaches it. -/
theorem on_path_iff (i j : Nat) : on_path i j ↔ ∃ k, parent_idx^[k] i = j := by
  constructor
  · rintro ⟨k, _, hk⟩
    exact ⟨k, hk⟩
  · rintro ⟨k, rfl⟩
    induction k with
    | zero => exact on_path_self i
    | succ k ih =>
      rw [Function.iterate_succ_apply']
      exact on_path_parent ih

theorem perc_up_stop {a : dynarray (pq_node α)} {i : Nat} (hi : i < a.length)
    (h : prio a ((i - 1) / 2) ≤ prio a i) : perc_up a (i : Int) = Res.ok a := by
  have hpl : (i - 1) / 2 < a.length := by omega
  have hp := List.getElem?_eq_getElem hpl
  have hx := List.getElem?_eq_getElem hi
  rw [prio_of_get hp, prio_of_get hx] at h
  unfold perc_up
  simp only [tdiv_parent]
  rw [dynarray_get_nat hp]
  exact perc_up_loop_stop a.length hx hp (not_lt.2 h) _

end Later

/-! ## The claims of the specification -/

/-- C2, at its scenario: inserting (A,5), (B,3), (C,8) into a new queue has no
defined outcome, and so neither has `pq_first_priority` or `pq_first` after
it. -/
theorem C2_scenario_undefined :
    scenario_abc = Res.undef ∧
    (scenario_abc >>= pq_first_priority) = Res.undef ∧
    (scenario_abc >>= pq_first) = Res.undef :=
  ⟨rfl, rfl, rfl⟩

/-- C3, at its scenario: after the inserts of (A,5), (B,3), (C,8), which have no
defined outcome, `pq_remove_first` has none either; the inserts do not complete
with any queue. -/
theorem C3_scenario_remove_undefined :
    (scenario_abc >>= pq_remove_first) = Res.undef ∧
    ¬ (∃ q, scenario_abc = Res.ok q) := by
  refine ⟨rfl, ?_⟩
  rintro ⟨q, hq⟩
  have h : scenario_abc = Res.undef := rfl
  rw [h] at hq
  cases hq

/-- C4, at its scenarios: inserting a non-empty list of pairs into any queue and
draining it has no defined outcome, whatever the number of removals allowed; so
it is for the priorities 4,4,4,1,9,1,4 and for the priorities 999..0. -/
theorem C4_fill_then_drain_undefined :
    (∀ (α : Type) (q : pq α) (e : α × Int) (rest : List (α × Int)) (n : Nat),
      (insert_all q (e :: rest) >>= drain n) = Res.undef) ∧
    (insert_all (pq_create : pq Nat)
        [(0, 4), (1, 4), (2, 4), (3, 1), (4, 9), (5, 1), (6, 4)] >>= drain 7) = Res.undef ∧
    (insert_all (pq_create : pq Nat) (descending 1000) >>= drain 1000) = Res.undef := by
  refine ⟨fun _ _ _ _ _ => rfl, rfl, ?_⟩
  have h : descending 1000 = (999, ((999 : Nat) : Int)) :: descending 999 :=
    descending_succ 999
  rw [h]
  rfl

/-- C5, for every queue, payload and priority: `pq_node_create` returns no
value and `pq_insert`, which uses that value as the new node, has no defined
outcome: it does not complete with any queue, so no entry `(v, p)` is added. -/
theorem C5_insert_undefined {α : Type} (q : pq α) (v : α) (p : Int) :
    (pq_node_create v p : Res (pq_node α)) = Res.undef ∧
    pq_insert q v p = Res.undef ∧
    ¬ (∃ q', pq_insert q v p = Res.ok q') := by
  refine ⟨rfl, rfl, ?_⟩
  rintro ⟨q', hq⟩
  rw [pq_insert_undef] at hq
  cases hq

/-- C6: for every non-empty queue of at most `2^30` entries whose counters
satisfy `last = size - 1`, `pq_remove_first` completes, returns the payload of
the entry that was at index 0, and the multiset of entries held before is that
entry plus the multiset held afterwards: only that entry is removed, every other
entry is still held. -/
theorem C6_remove_first_removes_root {α : Type} (q : pq α) (hne : pq_isempty q = 0)
    (hl : q.last = dynarray_size q.arr - 1) (hsz : dynarray_size q.arr ≤ 1073741824) :
    ∃ (n : pq_node α) (q' : pq α), q.arr[0]? = some n ∧
      pq_remove_first q = Res.ok (n.val, q') ∧
      (↑q.arr : Multiset (pq_node α)) = n ::ₘ (↑q'.arr : Multiset (pq_node α)) := by
  obtain ⟨n, h0⟩ := get_zero_of_ne_nil ((pq_isempty_eq_zero_iff q).1 hne)
  have hpos := lt_length_of_get h0
  obtain ⟨b, hb, hperm⟩ := pq_remove_first_perm q n h0
    (by rw [hl]; unfold dynarray_size; omega) (by rw [hl]; omega)
    (by unfold dynarray_size at hsz; omega)
  refine ⟨n, _, h0, hb, ?_⟩
  rw [Multiset.cons_coe]
  exact Multiset.coe_eq_coe.2 hperm

/-- C6 at the queue holding (B,3), (A,5), (C,8): the removal exchanges the moved
entry (C,8) with (A,5). -/
theorem C6_remove_first_removes_root_witness :
    pq_remove_first state_abc = Res.ok ("B", state_ac) ∧
    ∃ (n : pq_node String) (q' : pq String), state_abc.arr[0]? = some n ∧
      pq_remove_first state_abc = Res.ok (n.val, q') ∧
      (↑state_abc.arr : Multiset (pq_node String)) =
        n ::ₘ (↑q'.arr : Multiset (pq_node String)) :=
  ⟨by decide, C6_remove_first_removes_root state_abc (by decide) (by decide) (by decide)⟩

/-- C7, at the queue holding (B,3), (A,5), (C,8): the call `pq_insert(pq, D, 1)`
has no defined outcome; it does not complete with a queue whose array is larger
by one. -/
theorem C7_insert_size_undefined :
    pq_insert state_abc "D" 1 = Res.undef ∧
    ¬ (∃ q', pq_insert state_abc "D" 1 = Res.ok q' ∧
      dynarray_size q'.arr = dynarray_size state_abc.arr + 1) := by
  refine ⟨rfl, ?_⟩
  rintro ⟨q', hq, _⟩
  rw [pq_insert_undef] at hq
  cases hq

/-- C8, at its scenario: `pq_isempty` returns 1 on the queue of `pq_create`, and
the insert that follows has no defined outcome; it does not complete with a
queue on which `pq_isempty` returns 0. -/
theorem C8_scenario_insert_undefined :
    pq_isempty (pq_create : pq String) = 1 ∧
    pq_insert (pq_create : pq String) "X" 0 = Res.undef ∧
    ¬ (∃ q1, pq_insert (pq_create : pq String) "X" 0 = Res.ok q1 ∧ pq_isempty q1 = 0) := by
  refine ⟨rfl, rfl, ?_⟩
  rintro ⟨q1, hq, _⟩
  rw [pq_insert_undef] at hq
  cases hq

/-- C9, for every payload `x` and priority `p`: the call `pq_insert(q, x, p)` on
the queue of `pq_create` has no defined outcome, and neither have `pq_first`,
`pq_first_priority` and `pq_remove_first` after it. -/
theorem C9_single_insert_undefined (α : Type) (x : α) (p : Int) :
    pq_insert (pq_create : pq α) x p = Res.undef ∧
    (pq_insert (pq_create : pq α) x p >>= pq_first) = Res.undef ∧
    (pq_insert (pq_create : pq α) x p >>= pq_first_priority) = Res.undef ∧
    (pq_insert (pq_create : pq α) x p >>= pq_remove_first) = Res.undef :=
  ⟨rfl, rfl, rfl, rfl⟩

/-- C10, the claim as stated fails: on the empty queue of `pq_create` none of
`pq_first`, `pq_first_priority`, `pq_remove_first` completes with a result of
any kind (an error result included), and `pq_remove_first` defines no resulting
state: each one runs into the access `dynarray_get(arr, 0)`, which is outside
the range in which the array defines a behaviour. -/
theorem C10_counterexample :
    pq_first (pq_create : pq String) = Res.undef ∧
    pq_first_priority (pq_create : pq String) = Res.undef ∧
    pq_remove_first (pq_create : pq String) = Res.undef ∧
    ¬ (∃ r, pq_remove_first (pq_create : pq String) = Res.ok r) := by
  refine ⟨by decide, by decide, by decide, ?_⟩
  rintro ⟨r, hr⟩
  have h : pq_remove_first (pq_create : pq String) = Res.undef := by decide
  rw [h] at hr
  cases hr

/-- C10 as amended: `pq.c` has no check for an empty queue. Called on a queue
for which `pq_isempty` returns 1, each of `pq_first`, `pq_first_priority` and
`pq_remove_first` starts with the access `dynarray_get(arr, 0)`, which is outside
`[0, size)`, so the call has no defined outcome: neither an error result nor a
payload or priority, and for `pq_remove_first` no resulting state. -/
theorem C10_empty_queue_access_undefined {α : Type} (q : pq α) (h : pq_isempty q = 1) :
    pq_first q = Res.undef ∧ pq_first_priority q = Res.undef ∧
      pq_remove_first q = Res.undef := by
  have hnil := (pq_isempty_eq_one_iff q).1 h
  have g : dynarray_get q.arr 0 = Res.undef := by
    rw [hnil]; exact dynarray_get_nil 0
  refine ⟨?_, ?_, ?_⟩
  · simp [pq_first, g]
  · simp [pq_first_priority, g]
  · simp [pq_remove_first, g]

/-- C10 as amended, at an empty queue of numbers. -/
theorem C10_empty_queue_access_undefined_witness :
    pq_first ({ last := -1, next := 0, arr := [] } : pq Nat) = Res.undef ∧
    pq_first_priority ({ last := -1, next := 0, arr := [] } : pq Nat) = Res.undef ∧
    pq_remove_first ({ last := -1, next := 0, arr := [] } : pq Nat) = Res.undef :=
  C10_empty_queue_access_undefined { last := -1, next := 0, arr := [] } (by decide)

/-- C11: `perc_up` restores the heap. For every array of size `n ≥ 1` whose
min-heap condition holds at every index `1 ≤ i < n - 1` (the array without its
last element is a min-heap), `perc_up(arr, n - 1)` completes and yields an array
of the same size that is a permutation of the input entries and satisfies the
min-heap property at every non-root index. -/
theorem C11_perc_up_restores_heap {α : Type} (a : dynarray (pq_node α))
    (hn : 1 ≤ a.length)
    (h : ∀ i, 1 ≤ i → i < a.length - 1 → prio a ((i - 1) / 2) ≤ prio a i) :
    ∃ b, perc_up a (dynarray_size a - 1) = Res.ok b ∧
      dynarray_size b = dynarray_size a ∧
      (↑b : Multiset (pq_node α)) = (↑a : Multiset (pq_node α)) ∧
      (∀ i, 1 ≤ i → i < b.length → prio b ((i - 1) / 2) ≤ prio b i) := by
  have hinv : up_inv a (a.length - 1) := by
    constructor
    · intro j hj hj1 hne
      exact h j hj1 (by omega)
    · intro j hj hj1 hp _
      omega
  obtain ⟨b, hb, hperm, hheap⟩ := perc_up_heap a (a.length - 1) (by omega) hinv
  have hcast : dynarray_size a - 1 = ((a.length - 1 : Nat) : Int) := by
    unfold dynarray_size; omega
  refine ⟨b, by rw [hcast]; exact hb, ?_, Multiset.coe_eq_coe.2 hperm, ?_⟩
  · unfold dynarray_size; rw [hperm.length_eq]
  · intro i hi1 hi
    exact hheap i hi hi1

/-- C11 on the array (B,3), (A,5), (C,8), (D,1), whose first three nodes form a
heap. -/
theorem C11_perc_up_restores_heap_witness :
    ∃ b, perc_up [pq_node.mk "B" 3, pq_node.mk "A" 5, pq_node.mk "C" 8, pq_node.mk "D" 1]
        (dynarray_size [pq_node.mk "B" 3, pq_node.mk "A" 5, pq_node.mk "C" 8,
          pq_node.mk "D" 1] - 1) = Res.ok b ∧
      dynarray_size b = dynarray_size [pq_node.mk "B" 3, pq_node.mk "A" 5,
        pq_node.mk "C" 8, pq_node.mk "D" 1] ∧
      (↑b : Multiset (pq_node String)) =
        (↑[pq_node.mk "B" 3, pq_node.mk "A" 5, pq_node.mk "C" 8, pq_node.mk "D" 1] :
          Multiset (pq_node String)) ∧
      (∀ i, 1 ≤ i → i < b.length → prio b ((i - 1) / 2) ≤ prio b i) :=
  C11_perc_up_restores_heap
    [pq_node.mk "B" 3, pq_node.mk "A" 5, pq_node.mk "C" 8, pq_node.mk "D" 1]
    (by decide) (by decide)

/-- C12: `perc_down` restores the heap. For every array of at most `2^30`
entries whose min-heap condition holds at every index `i ≥ 3` (both subtrees of
the root are heaps),
`perc_down(arr, 0)` completes and yields an array of the same size that is a
permutation of the input entries and satisfies the min-heap property at every
non-root index. -/
theorem C12_perc_down_restores_heap {α : Type} (a : dynarray (pq_node α))
    (hsz : dynarray_size a ≤ 1073741824)
    (h : ∀ i, 3 ≤ i → i < a.length → prio a ((i - 1) / 2) ≤ prio a i) :
    ∃ b, perc_down a 0 = Res.ok b ∧
      dynarray_size b = dynarray_size a ∧
      (↑b : Multiset (pq_node α)) = (↑a : Multiset (pq_node α)) ∧
      (∀ i, 1 ≤ i → i < b.length → prio b ((i - 1) / 2) ≤ prio b i) := by
  have hinv : down_inv a 0 := (down_inv_zero_iff a).2 (fun j hj hj3 => h j hj3 hj)
  obtain ⟨b, hb, hperm, hheap⟩ :=
    perc_down_heap a 0 (by unfold dynarray_size at hsz; omega) (by decide) hinv
  refine ⟨b, hb, ?_, Multiset.coe_eq_coe.2 hperm, ?_⟩
  · unfold dynarray_size; rw [hperm.length_eq]
  · intro i hi1 hi
    exact hheap i hi hi1

/-- C12 on the array (C,8), (A,5), (B,3), (D,9), whose root is out of place. -/
theorem C12_perc_down_restores_heap_witness :
    ∃ b, perc_down [pq_node.mk "C" 8, pq_node.mk "A" 5, pq_node.mk "B" 3,
        pq_node.mk "D" 9] 0 = Res.ok b ∧
      dynarray_size b = dynarray_size [pq_node.mk "C" 8, pq_node.mk "A" 5,
        pq_node.mk "B" 3, pq_node.mk "D" 9] ∧
      (↑b : Multiset (pq_node String)) =
        (↑[pq_node.mk "C" 8, pq_node.mk "A" 5, pq_node.mk "B" 3, pq_node.mk "D" 9] :
          Multiset (pq_node String)) ∧
      (∀ i, 1 ≤ i → i < b.length → prio b ((i - 1) / 2) ≤ prio b i) :=
  C12_perc_down_restores_heap
    [pq_node.mk "C" 8, pq_node.mk "A" 5, pq_node.mk "B" 3, pq_node.mk "D" 9]
    (by decide) (by decide)

/-- C13: for every array of size `n ≤ 2^30` and every index `0 ≤ i < n`,
`get_min_child` completes with a value `c` such that: `c = -1` if and only if
`2i+1 ≥ n`; `c = 2i+1` when `2i+1 < n` and `2i+2 ≥ n`; when both children are in
range, `c = 2i+2` if and only if the priority at `2i+2` is strictly less than
the priority at `2i+1`, and `c = 2i+1` otherwise; and whenever `c` is not `-1`,
the priority at `c` is at most the priority of every in-range child of `i`. -/
theorem C13_get_min_child_result {α : Type} (a : dynarray (pq_node α)) (i : Nat)
    (hi : (i : Int) < dynarray_size a) (hsz : dynarray_size a ≤ 1073741824) :
    ∃ c : Int, get_min_child a (i : Int) = Res.ok c ∧
      (c = -1 ↔ dynarray_size a ≤ 2 * (i : Int) + 1) ∧
      (2 * (i : Int) + 1 < dynarray_size a → dynarray_size a ≤ 2 * (i : Int) + 2 →
        c = 2 * (i : Int) + 1) ∧
      (2 * (i : Int) + 2 < dynarray_size a →
        (c = 2 * (i : Int) + 2 ↔ prio a (2 * i + 2) < prio a (2 * i + 1)) ∧
        (¬ prio a (2 * i + 2) < prio a (2 * i + 1) → c = 2 * (i : Int) + 1)) ∧
      (c ≠ -1 → ∀ j : Nat, (j : Int) < dynarray_size a → j = 2 * i + 1 ∨ j = 2 * i + 2 →
        prio a c.toNat ≤ prio a j) := by
  unfold dynarray_size at hi hsz ⊢
  have hn : a.length ≤ 1073741824 := by omega
  by_cases hleaf : a.length ≤ 2 * i + 1
  · refine ⟨-1, get_min_child_leaf a i (by omega) hleaf, ?_, ?_, ?_, ?_⟩
    · constructor
      · intro _; omega
      · intro _; rfl
    · intro h; omega
    · intro h; omega
    · intro h; exact absurd rfl h
  · have hin : 2 * i + 1 < a.length := not_le.1 hleaf
    refine ⟨((mc a i : Nat) : Int), get_min_child_inner a i hn hin, ?_, ?_, ?_, ?_⟩
    · constructor
      · intro h; omega
      · intro h; omega
    · intro _ h2
      have : a.length ≤ 2 * i + 2 := by omega
      simp only [mc, if_pos this]
      push_cast; ring
    · intro h2
      have h2' : ¬ a.length ≤ 2 * i + 2 := by omega
      simp only [mc, if_neg h2']
      by_cases hlt : prio a (2 * i + 1) > prio a (2 * i + 2)
      · rw [if_pos hlt]
        refine ⟨⟨fun _ => hlt, fun _ => by push_cast; ring⟩, fun hn => absurd hlt hn⟩
      · rw [if_neg hlt]
        refine ⟨⟨fun h => by omega, fun h => absurd h hlt⟩, fun _ => by push_cast; ring⟩
    · intro _ j hj hc
      rw [Int.toNat_ofNat]
      exact mc_min a i j (by omega) (by omega) (by omega)

/-- C13 at the root of (C,8), (A,5), (B,3), (D,9): both children are in range and
the right one, (B,3), has the strictly smaller priority, so the result is 2. -/
theorem C13_get_min_child_result_witness :
    ∃ c : Int, get_min_child [pq_node.mk "C" 8, pq_node.mk "A" 5, pq_node.mk "B" 3,
        pq_node.mk "D" 9] ((0 : Nat) : Int) = Res.ok c ∧ c = 2 := by
  obtain ⟨c, hc, _, _, h3, _⟩ := C13_get_min_child_result
    [pq_node.mk "C" 8, pq_node.mk "A" 5, pq_node.mk "B" 3, pq_node.mk "D" 9] 0
    (by decide) (by decide)
  exact ⟨c, hc, ((h3 (by decide)).1).2 (by decide)⟩

/-- C14, the claim as stated fails: at the root `perc_up` computes the parent
index `(0 - 1) / 2 = 0` (C's division truncates toward zero), which is not
negative and is not the floor `-1`; the guard `parent >= 0` holds there, and
`perc_up` at index 0 of a one-element array reads `arr[parent]` and completes,
which a negative parent index would not allow. -/
theorem C14_counterexample :
    perc_up_parent 0 = 0 ∧ ¬ (perc_up_parent 0 < 0) ∧
    perc_up_parent 0 ≠ ((0 : Int) - 1) / 2 ∧
    perc_up [pq_node.mk "A" 5] 0 = Res.ok [pq_node.mk "A" 5] ∧
    dynarray_get [pq_node.mk "A" 5] (((0 : Int) - 1) / 2) = Res.undef := by
  refine ⟨by decide, by decide, by decide, by decide, by decide⟩

/-- C14 as amended: in `perc_up` the parent index computed for an index
`idx ≥ 0` is `(idx - 1) / 2` with C's truncating division: `floor((idx-1)/2)`
for every `idx ≥ 1` and `0`, the root itself, for `idx = 0`. It is never
negative, so the guard `parent >= 0` holds at every evaluation; at the root the
loop ends because the root's priority is not greater than itself, leaving the
array unchanged. -/
theorem C14_parent_index_truncates {α : Type} (idx : Int) (h : 0 ≤ idx) :
    (∀ a : dynarray (pq_node α), perc_up a idx =
      (dynarray_get a (perc_up_parent idx) >>= fun temp =>
        perc_up_loop (a.length + 1) a idx (perc_up_parent idx) temp)) ∧
    0 ≤ perc_up_parent idx ∧
    (1 ≤ idx → perc_up_parent idx = (idx - 1) / 2) ∧
    (idx = 0 → perc_up_parent idx = 0) ∧
    (∀ (a : dynarray (pq_node α)) (x : pq_node α) (fuel : Nat), a[0]? = some x →
      perc_up_loop (fuel + 1) a 0 (perc_up_parent 0) x = Res.ok a ∧
      perc_up a 0 = Res.ok a) := by
  obtain ⟨n, rfl⟩ := Int.eq_ofNat_of_zero_le h
  have hp : perc_up_parent (n : Int) = (((n - 1) / 2 : Nat) : Int) := tdiv_parent n
  refine ⟨fun a => rfl, ?_, ?_, ?_, ?_⟩
  · rw [hp]; exact Int.ofNat_nonneg _
  · intro h1
    rw [hp]; omega
  · intro h0
    rw [hp]; omega
  · intro a x fuel hx
    have h0 : perc_up_parent 0 = ((0 : Nat) : Int) := by decide
    have hstop : ∀ f : Nat, perc_up_loop (f + 1) a ((0 : Nat) : Int) ((0 : Nat) : Int) x
        = Res.ok a := fun f => perc_up_loop_stop f hx hx (lt_irrefl _) x
    refine ⟨by rw [h0]; exact hstop fuel, ?_⟩
    have hg : dynarray_get a ((0 : Nat) : Int) = Res.ok x := dynarray_get_nat hx
    show (dynarray_get a (perc_up_parent 0) >>= fun temp =>
      perc_up_loop (a.length + 1) a 0 (perc_up_parent 0) temp) = Res.ok a
    rw [h0, hg, Res.ok_bind]
    exact hstop a.length

/-- C14 as amended, at index 2 of a queue of strings. -/
theorem C14_parent_index_truncates_witness :
    (∀ a : dynarray (pq_node String), perc_up a 2 =
      (dynarray_get a (perc_up_parent 2) >>= fun temp =>
        perc_up_loop (a.length + 1) a 2 (perc_up_parent 2) temp)) ∧
    0 ≤ perc_up_parent 2 ∧
    (1 ≤ (2 : Int) → perc_up_parent 2 = (2 - 1) / 2) ∧
    ((2 : Int) = 0 → perc_up_parent 2 = 0) ∧
    (∀ (a : dynarray (pq_node String)) (x : pq_node String) (fuel : Nat),
      a[0]? = some x →
      perc_up_loop (fuel + 1) a 0 (perc_up_parent 0) x = Res.ok a ∧
      perc_up a 0 = Res.ok a) :=
  C14_parent_index_truncates 2 (by decide)

/-- C15: `perc_up(arr, idx)` terminates for every array and `perc_down(arr, idx)`
for every array of at most `2^30` entries, from every start index
`0 ≤ idx < size`, whatever the priorities are. Both complete with a result, and
every budget above `idx` (for `perc_up`) or above `size - idx` (for `perc_down`)
gives that same result. An iteration of `perc_up` that exchanges continues at
the parent index, which is strictly smaller, and at index 0 the loop exits; an
iteration of `perc_down` that exchanges continues at the chosen child, which is
strictly larger and below the size. -/
theorem C15_percolation_terminates {α : Type} (a : dynarray (pq_node α)) (i : Nat)
    (hi : (i : Int) < dynarray_size a) :
    (∃ b, perc_up a (i : Int) = Res.ok b ∧
      ∀ (fuel : Nat) (t : pq_node α), i < fuel → a[(i - 1) / 2]? = some t →
        perc_up_loop fuel a (i : Int) (perc_up_parent (i : Int)) t = Res.ok b) ∧
    (dynarray_size a ≤ 1073741824 → ∃ b, perc_down a (i : Int) = Res.ok b ∧
      ∀ fuel : Nat, a.length - i < fuel → perc_down_loop fuel a (i : Int) = Res.ok b) ∧
    (∀ (x t : pq_node α) (fuel : Nat), a[i]? = some x → a[(i - 1) / 2]? = some t →
      t.priority > x.priority →
      (i - 1) / 2 < i ∧
      ∃ t1, perc_up_loop (fuel + 1) a (i : Int) (perc_up_parent (i : Int)) t =
        perc_up_loop fuel ((a.set ((i - 1) / 2) x).set i t) (((i - 1) / 2 : Nat) : Int)
          (perc_up_parent (((i - 1) / 2 : Nat) : Int)) t1) ∧
    (∀ (x : pq_node α) (fuel : Nat), a[0]? = some x →
      perc_up_loop (fuel + 1) a 0 (perc_up_parent 0) x = Res.ok a) ∧
    (dynarray_size a ≤ 1073741824 →
      ∀ (x y : pq_node α) (fuel : Nat), a[i]? = some x → a[mc a i]? = some y →
      2 * i + 1 < a.length → y.priority < x.priority →
      i < mc a i ∧ mc a i < a.length ∧
      perc_down_loop (fuel + 1) a (i : Int) =
        perc_down_loop fuel ((a.set (mc a i) x).set i y) ((mc a i : Nat) : Int)) := by
  have hil : i < a.length := by unfold dynarray_size at hi; omega
  have hpl : (i - 1) / 2 < a.length := by omega
  have hp := List.getElem?_eq_getElem hpl
  have hpar : ∀ n : Nat, perc_up_parent (n : Int) = (((n - 1) / 2 : Nat) : Int) :=
    fun n => tdiv_parent n
  refine ⟨?_, ?_, ?_, ?_, ?_⟩
  · obtain ⟨b, _, hb, _⟩ :=
      perc_up_loop_rule (fun _ _ => True) (fun _ _ _ _ _ _ _ _ _ => trivial)
        (i + 1) a i _ (by omega) hil hp trivial
    refine ⟨b, ?_, ?_⟩
    · unfold perc_up
      simp only [tdiv_parent]
      rw [dynarray_get_nat hp, Res.ok_bind]
      exact perc_up_loop_budget_le (i + 1) (a.length + 1) (by omega) _ _ _ _ _ hb
    · intro fuel t hf ht
      rw [hp] at ht
      cases ht
      rw [hpar]
      exact perc_up_loop_budget_le (i + 1) fuel (by omega) _ _ _ _ _ hb
  · intro hsz
    have hn : a.length ≤ 1073741824 := by unfold dynarray_size at hsz; omega
    obtain ⟨b, _, hb, _⟩ :=
      perc_down_loop_rule (fun _ _ => True) (fun _ _ _ _ _ _ _ _ _ => trivial)
        (a.length - i + 1) a i hn (by omega) (by omega) trivial
    refine ⟨b, ?_, ?_⟩
    · exact perc_down_loop_budget_le (a.length - i + 1) (a.length + 1) (by omega) _ _ _ hb
    · intro fuel hf
      exact perc_down_loop_budget_le (a.length - i + 1) fuel (by omega) _ _ _ hb
  · intro x t fuel hx ht hlt
    have hi1 : 1 ≤ i := by
      rcases Nat.eq_zero_or_pos i with h0 | h0
      · subst h0
        have h2 : a[0]? = some t := ht
        rw [hx] at h2
        cases h2
        exact absurd hlt (lt_irrefl _)
      · exact h0
    refine ⟨by omega, ?_⟩
    have hlen : ((a.set ((i - 1) / 2) x).set i t).length = a.length := by simp
    have hgl : ((i - 1) / 2 - 1) / 2 < ((a.set ((i - 1) / 2) x).set i t).length := by
      rw [hlen]; omega
    refine ⟨((a.set ((i - 1) / 2) x).set i t)[((i - 1) / 2 - 1) / 2], ?_⟩
    rw [hpar, hpar]
    exact perc_up_loop_swap fuel hx ht hlt (tdiv_parent _) (List.getElem?_eq_getElem hgl)
  · intro x fuel hx
    have h0 : perc_up_parent 0 = ((0 : Nat) : Int) := by decide
    rw [h0]
    exact perc_up_loop_stop fuel hx hx (lt_irrefl _) x
  · intro hsz x y fuel hx hy hin hlt
    have hn : a.length ≤ 1073741824 := by unfold dynarray_size at hsz; omega
    refine ⟨?_, lt_length_of_get hy, perc_down_loop_swap fuel hn hin hx hy hlt⟩
    rcases mc_cases a i with h | h <;> omega

/-- C15 where both loops exchange: `perc_up` from index 3 of (B,3), (A,5),
(C,8), (D,1) exchanges twice, `perc_down` from index 0 of (C,8), (A,5), (B,3),
(D,9) exchanges once. -/
theorem C15_percolation_terminates_witness :
    (∃ b, perc_up [pq_node.mk "B" 3, pq_node.mk "A" 5, pq_node.mk "C" 8, pq_node.mk "D" 1]
        ((3 : Nat) : Int) = Res.ok b ∧
      b = [pq_node.mk "D" 1, pq_node.mk "B" 3, pq_node.mk "C" 8, pq_node.mk "A" 5]) ∧
    (∃ b, perc_down [pq_node.mk "C" 8, pq_node.mk "A" 5, pq_node.mk "B" 3,
        pq_node.mk "D" 9] ((0 : Nat) : Int) = Res.ok b ∧
      b = [pq_node.mk "B" 3, pq_node.mk "A" 5, pq_node.mk "C" 8, pq_node.mk "D" 9] ∧
      ∀ fuel : Nat, 4 < fuel →
        perc_down_loop fuel [pq_node.mk "C" 8, pq_node.mk "A" 5, pq_node.mk "B" 3,
          pq_node.mk "D" 9] ((0 : Nat) : Int) = Res.ok b) := by
  obtain ⟨b1, h1, _⟩ := (C15_percolation_terminates
    [pq_node.mk "B" 3, pq_node.mk "A" 5, pq_node.mk "C" 8, pq_node.mk "D" 1] 3
    (by decide)).1
  obtain ⟨b2, h2, h3⟩ := (C15_percolation_terminates
    [pq_node.mk "C" 8, pq_node.mk "A" 5, pq_node.mk "B" 3, pq_node.mk "D" 9] 0
    (by decide)).2.1 (by decide)
  have e1 : perc_up [pq_node.mk "B" 3, pq_node.mk "A" 5, pq_node.mk "C" 8,
      pq_node.mk "D" 1] ((3 : Nat) : Int) =
      Res.ok [pq_node.mk "D" 1, pq_node.mk "B" 3, pq_node.mk "C" 8, pq_node.mk "A" 5] := by
    decide
  have e2 : perc_down [pq_node.mk "C" 8, pq_node.mk "A" 5, pq_node.mk "B" 3,
      pq_node.mk "D" 9] ((0 : Nat) : Int) =
      Res.ok [pq_node.mk "B" 3, pq_node.mk "A" 5, pq_node.mk "C" 8, pq_node.mk "D" 9] := by
    decide
  have d1 : b1 = [pq_node.mk "D" 1, pq_node.mk "B" 3, pq_node.mk "C" 8,
      pq_node.mk "A" 5] := by
    rw [e1] at h1
    cases h1
    rfl
  have d2 : b2 = [pq_node.mk "B" 3, pq_node.mk "A" 5, pq_node.mk "C" 8,
      pq_node.mk "D" 9] := by
    rw [e2] at h2
    cases h2
    rfl
  exact ⟨⟨b1, h1, d1⟩, ⟨b2, h2, d2, fun fuel hf => h3 fuel (by simpa using hf)⟩⟩

/-- C16, at its scenario: inserting (A,1), (B,1), (C,1) into a new queue has no
defined outcome, so the three removals that would return A, C, B are not
reached. -/
theorem C16_scenario_undefined :
    insert_all (pq_create : pq String) [("A", 1), ("B", 1), ("C", 1)] = Res.undef ∧
    (insert_all (pq_create : pq String) [("A", 1), ("B", 1), ("C", 1)] >>= drain 3)
      = Res.undef :=
  ⟨rfl, rfl⟩

/-- C19: `perc_up(arr, idx)` changes only slots on the path from `idx` to the
root. For every array and every `0 ≤ idx < size` it completes, and every index
`j` that is neither `idx` nor an ancestor of `idx` (not obtained from `idx` by
repeatedly applying `j -> (j - 1) / 2`) holds the same entry afterwards. If
the parent's priority is at most the priority at `idx` (equal priorities
included), the array is returned entirely unchanged. -/
theorem C19_perc_up_frame {α : Type} (a : dynarray (pq_node α)) (i : Nat)
    (hi : (i : Int) < dynarray_size a) :
    ∃ b, perc_up a (i : Int) = Res.ok b ∧
      (∀ j : Nat, ¬ (∃ k, parent_idx^[k] i = j) → b[j]? = a[j]?) ∧
      (∀ j : Nat, ¬ on_path i j → b[j]? = a[j]?) ∧
      (prio a ((i - 1) / 2) ≤ prio a i → b = a) := by
  have hil : i < a.length := by unfold dynarray_size at hi; omega
  obtain ⟨b, k, hb, _, _, ⟨_, hframe⟩, _⟩ :=
    perc_up_rule (fun d m => on_path i m ∧ ∀ j : Nat, ¬ on_path i j → d[j]? = a[j]?)
      (fun d m x t hc _ hx ht _ => by
        refine ⟨on_path_parent hc.1, ?_⟩
        intro j hj
        have h1 : ¬ j = m := fun e => hj (e ▸ hc.1)
        have h2 : ¬ j = (m - 1) / 2 := fun e => hj (e ▸ on_path_parent hc.1)
        rw [get_set_set hx ht j, if_neg h1, if_neg h2]
        exact hc.2 j hj)
      a i hil ⟨on_path_self i, fun _ _ => rfl⟩
  refine ⟨b, hb, ?_, hframe, ?_⟩
  · intro j hj
    exact hframe j (fun h => hj ((on_path_iff i j).1 h))
  · intro hle
    have hs := perc_up_stop hil hle
    rw [hs] at hb
    cases hb
    rfl

/-- C19 at index 3 of the array (B,3), (A,5), (C,8), (D,1): index 2 is not on the
path 3, 1, 0. -/
theorem C19_perc_up_frame_witness :
    ∃ b, perc_up [pq_node.mk "B" 3, pq_node.mk "A" 5, pq_node.mk "C" 8, pq_node.mk "D" 1]
        ((3 : Nat) : Int) = Res.ok b ∧ b[2]? = some (pq_node.mk "C" 8) :=
  (C19_perc_up_frame
    [pq_node.mk "B" 3, pq_node.mk "A" 5, pq_node.mk "C" 8, pq_node.mk "D" 1] 3
    (by decide)).imp (fun _ h => ⟨h.1, h.2.2.1 2 (by decide)⟩)
